import Mathlib

/-! Verification of the selector-resolution core of the space-command
toolkit: the TLE time-series store (insert / history / get_dated), the
request offset resolution of `Sat._from_request`, the selector-string
grammar of `Request.from_text` / `Request.__str__`, and the orbit-file
archive tag and purge operations of `CcsdsDb`.  Python machine values are
modelled with `Nat` / `String`; database tables are modelled as lists in
insertion (rowid) order; datetimes are modelled as `Nat` timestamps where
only their ordering matters. -/

deriving instance DecidableEq for Except

/-- A row of the TLE table (`src/space/tle.py`, class `TleModel`): columns
norad_id, cospar_id, name, data, epoch, src.  The `insert_date` column
(wall clock at insertion, never read by the operations under study) is
omitted. -/
structure TleRec where
  norad_id : Nat
  cospar_id : String
  name : String
  data : String
  epoch : Nat
  src : String
deriving DecidableEq, Repr

/-- A TLE record as produced by the external parser `Tle.from_string`
(library `beyond`, outside this repository): the fields of a parsed `Tle`
object that `TleDb.insert` reads (`norad_id`, `cospar_id`, `name`, `text`,
`epoch`). -/
structure ParsedTle where
  norad_id : Nat
  cospar_id : String
  name : String
  text : String
  epoch : Nat
deriving DecidableEq, Repr

/-- The entity dict built by `TleDb.insert` for a parsed TLE that is not yet
in the table. -/
def toRec (p : ParsedTle) (src : String) : TleRec :=
  ⟨p.norad_id, p.cospar_id, p.name, p.text, p.epoch, src⟩

/-- The dedup probe of `TleDb.insert`: `self.model.get(norad_id == tle.norad_id,
epoch == tle.epoch)` succeeds iff some existing row has the same
(norad_id, epoch) key. -/
def existsIn (store : List TleRec) (p : ParsedTle) : Bool :=
  store.any (fun r => r.norad_id == p.norad_id && r.epoch == p.epoch)

/-- The list `entities` accumulated by the loop of `TleDb.insert`: the input
records whose (norad_id, epoch) key is absent from the pre-existing table,
in input order.  (The probe sees only pre-existing rows: `insert_many` runs
after the whole loop.) -/
def newEntities (store : List TleRec) (tles : List ParsedTle) (src : String) :
    List TleRec :=
  (tles.filter (fun p => !existsIn store p)).map (fun p => toRec p src)

/-- Whether two rows collide on the unique index `(norad_id, epoch)`
declared by `TleModel.add_index(..., unique=True)`. -/
def sameKey (a b : TleRec) : Bool :=
  a.norad_id == b.norad_id && a.epoch == b.epoch

/-- Whether a batch contains two rows with the same (norad_id, epoch) key,
which makes the bulk `insert_many` violate the unique index. -/
def hasDupKey : List TleRec → Bool
  | [] => false
  | r :: rest => rest.any (sameKey r) || hasDupKey rest

/-- Failure modes of `TleDb.insert`: the `ValueError` raised when the text
contains no TLE at all, and the peewee `IntegrityError` raised by
`insert_many` when the batch violates the unique (norad_id, epoch) index. -/
inductive InsertErr
  | emptyInput
  | uniqueViolation
deriving DecidableEq, Repr

/-- `TleDb.insert(text, src)` (src/space/tle.py, lines 300-339), with the
external TLE text parsing abstracted into the already-parsed record list.
The whole body runs inside `with self.db.atomic()`: on an integrity error
the transaction rolls back and the table is unchanged.  On success the
second component is the value returned to the caller: the Python function
body has no `return` statement, so the caller always receives `None`
(the inserted count appears only in the `log.info` line). -/
def tleInsert (store : List TleRec) (tles : List ParsedTle) (src : String) :
    Except InsertErr (List TleRec × Option Nat) :=
  let ents := newEntities store tles src
  if ents.isEmpty then
    if tles.isEmpty then .error .emptyInput
    else .ok (store, none)
  else if hasDupKey ents then .error .uniqueViolation
  else .ok (store ++ ents, none)

/-- The table contents after a call to `TleDb.insert`: the new table on
success, the rolled-back (unchanged) table when the call raises. -/
def applyInsert (store : List TleRec) (tles : List ParsedTle) (src : String) :
    List TleRec :=
  match tleInsert store tles src with
  | .ok (s2, _) => s2
  | .error _ => store

/-- Ordering of rows by the epoch column (used by `order_by(self.model.epoch)`). -/
def epochLe (a b : TleRec) : Prop := a.epoch ≤ b.epoch

/-- Strict ordering of rows by the epoch column. -/
def epochLt (a b : TleRec) : Prop := a.epoch < b.epoch

instance : DecidableRel epochLe :=
  fun a b => inferInstanceAs (Decidable (a.epoch ≤ b.epoch))

instance : DecidableRel epochLt :=
  fun a b => inferInstanceAs (Decidable (a.epoch < b.epoch))

instance : IsTotal TleRec epochLe := ⟨fun a b => Nat.le_total a.epoch b.epoch⟩

instance : IsTrans TleRec epochLe := ⟨fun _ _ _ h1 h2 => Nat.le_trans h1 h2⟩

instance : IsAntisymm TleRec epochLt :=
  ⟨fun _ _ h1 h2 => absurd h2 (Nat.lt_asymm h1)⟩

/-- The SQL `ORDER BY epoch ASC` applied to a query result. -/
def sortByEpoch (l : List TleRec) : List TleRec := List.insertionSort epochLe l

/-- ASCII digit test (regex class `\\d`). -/
def isDigitChar (c : Char) : Bool := c.isDigit

/-- Numeric value of an ASCII digit character. -/
def digitVal (c : Char) : Nat := c.toNat - 48

/-- Decimal value of a digit string, as computed by Python `int(...)` on a
string of digits. -/
def natOfDigits (ds : List Char) : Nat :=
  ds.foldl (fun acc c => acc * 10 + digitVal c) 0

/-- Conversion of a request value to an integer for comparison against an
integer column, as performed by `int(...)` / SQLite numeric affinity: a
non-empty all-digit string denotes its decimal value, anything else matches
no integer. -/
def strToNatQ (v : String) : Option Nat :=
  if !v.data.isEmpty && v.data.all isDigitChar then some (natOfDigits v.data)
  else none

/-- The three selector fields a request can filter on (`name`, `cospar_id`,
`norad_id`), i.e. the keyword accepted by `filter(**kwargs)` on the TLE
table. -/
inductive SelField
  | name
  | cospar_id
  | norad_id
deriving DecidableEq, Repr

/-- The peewee filter `filter(**{field: value})` with the request value,
which is a string: for the integer column norad_id, SQLite numeric affinity
coerces a digit string to the integer before comparing (a non-numeric
string matches nothing). -/
def matchField (f : SelField) (v : String) (r : TleRec) : Bool :=
  match f with
  | .name => r.name == v
  | .cospar_id => r.cospar_id == v
  | .norad_id =>
    match strToNatQ v with
    | some n => r.norad_id == n
    | none => false

/-- Failure of a TLE table lookup (`TleNotFound` in src/space/tle.py). -/
inductive HistErr
  | notFound
deriving DecidableEq, Repr

/-- `TleDb.history(number, **kwargs)` (src/space/tle.py, lines 272-292):
filter, order by epoch ascending, raise `TleNotFound` iff the filter
matches nothing at all, then slice `query[-number:]` with `number = 0` when
the argument is `None`.  Python slicing `[-0:]` returns the whole list, and
`[-n:]` for `n ≥ 1` returns the last `min n len` entries, which is
`drop (len - n)`. -/
def history (store : List TleRec) (sel : SelField) (v : String)
    (number : Option Nat) : Except HistErr (List TleRec) :=
  let q := sortByEpoch (store.filter (matchField sel v))
  if q.isEmpty then .error .notFound
  else
    let n := number.getD 0
    if n == 0 then .ok q else .ok (q.drop (q.length - n))

/-- Failure of `TleDb.get_dated`: its `except DoesNotExist` handler executes
`raise TleNotFound(selector, mode=mode) from e` where `e` is an unbound
name, so the caller actually receives a `NameError`, not `TleNotFound`. -/
inductive DatedErr
  | nameError
deriving DecidableEq, Repr

/-- `TleDb.get_dated(limit, date, **kwargs)` (src/space/tle.py, lines
250-270).  The `after` branch orders by epoch ascending and takes the first
match; the `else` branch (`before` and any other limit value) has NO
`order_by`, so `.get()` returns the first matching row in table (rowid,
i.e. insertion) order. -/
def getDated (store : List TleRec) (limit : String) (date : Nat)
    (sel : SelField) (v : String) : Except DatedErr TleRec :=
  let rows :=
    if limit == "after" then
      sortByEpoch (store.filter (fun r => matchField sel v r && date ≤ r.epoch))
    else
      store.filter (fun r => matchField sel v r && r.epoch ≤ date)
  match rows.head? with
  | some r => .ok r
  | none => .error .nameError

/-- A row of the satellite registry (`SatModel` in src/space/sat.py). -/
structure SatRec where
  norad_id : Option Nat
  cospar_id : Option String
  name : String
deriving DecidableEq, Repr

/-- The registry filter `SatModel.select().filter(**{selector: value})`. -/
def satMatch (f : SelField) (v : String) (s : SatRec) : Bool :=
  match f with
  | .name => s.name == v
  | .cospar_id => s.cospar_id == some v
  | .norad_id =>
    match strToNatQ v with
    | some n => s.norad_id == some n
    | none => false

/-- The registry lookup of `Sat._from_request`: `.get()` on the filtered
query returns the first matching row, raising `DoesNotExist` otherwise. -/
def satLookup (reg : List SatRec) (f : SelField) (v : String) : Option SatRec :=
  reg.find? (satMatch f v)

/-- Failure of `Sat._from_request`: the `ValueError` for an unknown
satellite, and `NoDataError` when the satellite is known but the requested
record does not exist. -/
inductive ResolveErr
  | satNotFound
  | noData
deriving DecidableEq, Repr

/-- The `src == "tle"`, `limit == "any"` branch of `Sat._from_request`
(src/space/sat.py, lines 340-356): look the satellite up in the registry,
call `history(number=offset+1)` (a `TleNotFound` becomes `NoDataError`),
raise `NoDataError` when `len(tles) <= offset`, and otherwise return
`tles[0]`, the oldest record of the returned window. -/
def fromRequestTleAny (reg : List SatRec) (store : List TleRec)
    (sel : SelField) (v : String) (offset : Nat) : Except ResolveErr TleRec :=
  match satLookup reg sel v with
  | none => .error .satNotFound
  | some _ =>
    match history store sel v (some (offset + 1)) with
    | .error _ => .error .noData
    | .ok tles =>
      if h : tles.length ≤ offset then .error .noData
      else .ok (tles.get ⟨0, by omega⟩)

/-- A file of a satellite's archive folder as seen by `purge`: its filename
and the timestamp embedded in the name (parsed by
`Date.strptime(file.stem.partition("_")[2], ...)` in `_generic_cmd`),
modelled as a `Nat`. -/
structure FileRec where
  fname : String
  ftime : Nat
deriving DecidableEq, Repr

/-- The confirmed `purge` branch of `_generic_cmd` (src/space/ccsds.py,
lines 475-518), for one satellite folder restricted to the purged
extension: `sublist` collects the files with embedded timestamp strictly
older than the cutoff, and after the interactive confirmation every file of
`sublist` is unlinked unless it appears in `rtags` (the set of filenames
referenced by the tag index, taken without extension filter).  The
remaining files of the folder are therefore exactly those that are not
strictly older than the cutoff or are tagged. -/
def purge (files : List FileRec) (tagged : List String) (cutoff : Nat) :
    List FileRec :=
  files.filter (fun f => !(decide (f.ftime < cutoff) && !(tagged.contains f.fname)))

/-- A dict as used for the tag index (`.tags.yml` contents): an association
list in insertion order with unique keys; assignment `d[k] = v` updates in
place or appends. -/
def upsert (idx : List (String × String)) (k v : String) :
    List (String × String) :=
  match idx with
  | [] => [(k, v)]
  | (k0, v0) :: rest =>
    if k0 == k then (k, v) :: rest else (k0, v0) :: upsert rest k v

/-- `CcsdsDb.tag(sat, tag, force)` (src/space/ccsds.py, lines 147-177): if
the tag name is already a key of the tag index and `force` is false, raise
`ValueError`; otherwise bind the tag to the filename of the currently
loaded orbit file (`sat.orb.filepath`) and rewrite the index. -/
def tagOp (idx : List (String × String)) (f : String) (t : String)
    (force : Bool) : Except String (List (String × String)) :=
  match idx.lookup t with
  | some g =>
    if !force then .error ("The tag " ++ t ++ " is already taken by " ++ g)
    else .ok (upsert idx t f)
  | none => .ok (upsert idx t f)

/-- Sample parsed TLE for the ISS with epoch stamp 170. -/
def pIss17 : ParsedTle := ⟨25544, "1998-067A", "ISS (ZARYA)", "tle-text-17", 170⟩

/-- Sample parsed TLE with the same (norad_id, epoch) key as `pIss17` but a
different raw text. -/
def pIss17b : ParsedTle := ⟨25544, "1998-067A", "ISS (ZARYA)", "tle-text-17-bis", 170⟩

/-- Sample parsed TLE for the ISS with epoch stamp 180. -/
def pIss18 : ParsedTle := ⟨25544, "1998-067A", "ISS (ZARYA)", "tle-text-18", 180⟩

/-- Table row obtained from inserting `pIss17` with source tag stdin. -/
def rIss17 : TleRec := toRec pIss17 "stdin"

/-- Table row obtained from inserting `pIss18` with source tag stdin. -/
def rIss18 : TleRec := toRec pIss18 "stdin"

/-- Sample registry holding the ISS. -/
def regIss : List SatRec := [⟨some 25544, some "1998-067A", "ISS (ZARYA)"⟩]


-- ===================== selector grammar =====================

/-- The delimiter class of `Request.from_text` (regex `[@~\^\?\$]`). -/
def isDelim (c : Char) : Bool :=
  c == '@' || c == '~' || c == '^' || c == '?' || c == '$'

/-- The character class `[a-zA-Z0-9]` of the source regex. -/
def isAlnumAscii (c : Char) : Bool := c.isAlpha || c.isDigit

/-- The character class `[0-9-T:.]` of the date regex. -/
def isDateTok (c : Char) : Bool :=
  c.isDigit || c == '-' || c == 'T' || c == ':' || c == '.'

/-- Python `str.split(sep)` for a one-character separator. -/
def splitOnChar (sep : Char) : List Char → List (List Char)
  | [] => [[]]
  | c :: rest =>
    match splitOnChar sep rest with
    | [] => [[]]
    | p :: ps => if c == sep then [] :: p :: ps else (c :: p) :: ps

/-- Uppercase-to-lowercase table of Python `str.lower()` restricted to
ASCII (all the source regex can capture). -/
def lowerPairs : List (Char × Char) :=
  [('A','a'), ('B','b'), ('C','c'), ('D','d'), ('E','e'), ('F','f'),
   ('G','g'), ('H','h'), ('I','i'), ('J','j'), ('K','k'), ('L','l'),
   ('M','m'), ('N','n'), ('O','o'), ('P','p'), ('Q','q'), ('R','r'),
   ('S','s'), ('T','t'), ('U','u'), ('V','v'), ('W','w'), ('X','x'),
   ('Y','y'), ('Z','z')]

/-- ASCII lowercasing of one character. -/
def lowerChar (c : Char) : Char := (lowerPairs.lookup c).getD c

/-- `re.search` for a pattern of the shape trigger-then-class-run: find the
leftmost position where a trigger character is immediately followed by at
least one character of the class, and return the trigger together with the
maximal class run following it. -/
def searchSeq (trig cls : Char → Bool) : List Char → Option (Char × List Char)
  | [] => none
  | c :: rest =>
    if trig c then
      match rest with
      | d :: _ =>
        if cls d then some (c, rest.takeWhile cls)
        else searchSeq trig cls rest
      | [] => searchSeq trig cls rest
    else searchSeq trig cls rest

/-- The offset computation of `Request.from_text`: `txt.count("~")`, and
when that count is exactly 1, the digits of a `~(\d+)` match if any. -/
def parseOffset (l : List Char) : Nat :=
  let cnt := l.count '~'
  if cnt == 1 then
    match searchSeq (fun c => c == '~') isDigitChar l with
    | some (_, ds) => natOfDigits ds
    | none => 1
  else cnt

/-- The source computation of `Request.from_text`: the first
`@([a-zA-Z0-9]+)` match lowercased, or the configured default
(`satellites.default-orbit-type`, nominally tle) when absent. -/
def parseSrc (l : List Char) : String :=
  match searchSeq (fun c => c == '@') isAlnumAscii l with
  | some (_, tok) => String.mk (tok.map lowerChar)
  | none => "tle"

/-- A parsed datetime as produced by `parse_date` (second resolution). -/
structure DateT where
  year : Nat
  month : Nat
  day : Nat
  hour : Nat
  minute : Nat
  second : Nat
deriving DecidableEq, Repr

/-- The date field of a `Request`: the placeholder string any, or a parsed
date (`Request.__str__` distinguishes the two with `isinstance(..., Date)`). -/
inductive DateVal
  | anyDate
  | date (d : DateT)
deriving DecidableEq, Repr

/-- Greedy scan of at most k leading digits (the regex `\d{1,k}`). -/
def grabDigits : Nat → List Char → List Char × List Char
  | 0, l => ([], l)
  | _ + 1, [] => ([], [])
  | k + 1, c :: rest =>
    if isDigitChar c then
      let p := grabDigits k rest
      (c :: p.1, p.2)
    else ([], c :: rest)

/-- A 1-2 digit numeric strptime field. -/
def numField2 (l : List Char) : Option (Nat × List Char) :=
  let p := grabDigits 2 l
  if p.1.isEmpty then none else some (natOfDigits p.1, p.2)

/-- The exactly-4-digit `%Y` strptime field. -/
def numFieldY (l : List Char) : Option (Nat × List Char) :=
  let p := grabDigits 4 l
  if p.1.length == 4 then some (natOfDigits p.1, p.2) else none

/-- Consume one expected literal character of the format. -/
def expectChar (c : Char) : List Char → Option (List Char)
  | x :: rest => if x == c then some rest else none
  | [] => none

/-- The value ranges accepted when the parsed fields are turned into a
datetime (year 1-9999, month 1-12, day 1-31, hour 0-23, minute and second
0-59; whether the day exists in the particular month is not modelled). -/
def dateFieldsOk (y mo d h mi s : Nat) : Bool :=
  1 ≤ y && y ≤ 9999 && 1 ≤ mo && mo ≤ 12 && 1 ≤ d && d ≤ 31
  && h ≤ 23 && mi ≤ 59 && s ≤ 59

/-- Range validity of a parsed date. -/
def dateOk (d : DateT) : Bool :=
  dateFieldsOk d.year d.month d.day d.hour d.minute d.second

/-- Model of `Date.strptime(txt, "%Y-%m-%d")`, the date-only format tried
first by `parse_date` (external stdlib behaviour on this fixed format). -/
def strTimeDateOnly (l : List Char) : Option DateT :=
  (numFieldY l).bind (fun py =>
  (expectChar '-' py.2).bind (fun l2 =>
  (numField2 l2).bind (fun pmo =>
  (expectChar '-' pmo.2).bind (fun l4 =>
  (numField2 l4).bind (fun pd =>
  if pd.2.isEmpty && dateFieldsOk py.1 pmo.1 pd.1 0 0 0
  then some ⟨py.1, pmo.1, pd.1, 0, 0, 0⟩ else none)))))

/-- Model of `Date.strptime(txt, "%Y-%m-%dT%H:%M:%S")`, the full format
`parse_date` falls back to. -/
def strTimeFull (l : List Char) : Option DateT :=
  (numFieldY l).bind (fun py =>
  (expectChar '-' py.2).bind (fun l2 =>
  (numField2 l2).bind (fun pmo =>
  (expectChar '-' pmo.2).bind (fun l4 =>
  (numField2 l4).bind (fun pd =>
  (expectChar 'T' pd.2).bind (fun l6 =>
  (numField2 l6).bind (fun ph =>
  (expectChar ':' ph.2).bind (fun l8 =>
  (numField2 l8).bind (fun pmi =>
  (expectChar ':' pmi.2).bind (fun l10 =>
  (numField2 l10).bind (fun ps =>
  if ps.2.isEmpty && dateFieldsOk py.1 pmo.1 pd.1 ph.1 pmi.1 ps.1
  then some ⟨py.1, pmo.1, pd.1, ph.1, pmi.1, ps.1⟩ else none)))))))))))

/-- Failure modes of `Request.from_text`: a `split("=")` that does not
unpack into two values, an unknown selector, and a date token neither
format can parse. -/
inductive ParseErr
  | unpackError
  | unknownSelector
  | badDate
deriving DecidableEq, Repr

/-- The limit/date computation of `Request.from_text`: the first
`(\^|\?)([0-9-T:.]+)` match makes limit after for `^` and before for `?`,
and the captured token is parsed with the date-only format first, then the
full format, a failure of both propagating as `ValueError`. -/
def parseLimDate (l : List Char) : Except ParseErr (String × DateVal) :=
  match searchSeq (fun c => c == '^' || c == '?') isDateTok l with
  | none => .ok ("any", .anyDate)
  | some (c, tok) =>
    let lim := if c == '^' then "after" else "before"
    match strTimeDateOnly tok with
    | some d => .ok (lim, .date d)
    | none =>
      match strTimeFull tok with
      | some d => .ok (lim, .date d)
      | none => .error .badDate

/-- The selector/value computation on the text before the first delimiter:
`selector, value = selector_str.split("=")` when an equals sign is present
(raising `ValueError` when the split does not have exactly two parts), and
otherwise the whole token as a name value. -/
def splitKV (l : List Char) : Except ParseErr (String × String) :=
  if l.contains '=' then
    match splitOnChar '=' l with
    | [a, b] => .ok (String.mk a, String.mk b)
    | _ => .error .unpackError
  else .ok ("name", String.mk l)

/-- The alias substitution of `Request.from_text`: when the selector is
name and the value matches a stored alias, the pair is replaced by the
alias selector string split on equals (one substitution, not recursive). -/
def applyAlias (tbl : List (String × String)) (p : String × String) :
    Except ParseErr (String × String) :=
  if p.1 == "name" then
    match tbl.lookup p.2 with
    | some sel =>
      match splitOnChar '=' sel.data with
      | [a, b] => .ok (String.mk a, String.mk b)
      | _ => .error .unpackError
    | none => .ok p
  else .ok p

/-- The norad / cospar shorthand expansion. -/
def expandSelector (p : String × String) : String × String :=
  if p.1 == "norad" || p.1 == "cospar" then (p.1 ++ "_id", p.2) else p

/-- The final selector validity check of `Request.from_text` (raising
`ValueError("Unknown selector ...")` otherwise). -/
def checkSelector (p : String × String) : Except ParseErr (String × String) :=
  if p.1 == "name" || p.1 == "cospar_id" || p.1 == "norad_id" then .ok p
  else .error .unknownSelector

/-- The selector/value pipeline of `Request.from_text`. -/
def parseSelVal (tbl : List (String × String)) (l : List Char) :
    Except ParseErr (String × String) :=
  match splitKV (l.takeWhile (fun c => !isDelim c)) with
  | .error e => .error e
  | .ok p =>
    match applyAlias tbl p with
    | .error e => .error e
    | .ok p2 => checkSelector (expandSelector p2)

/-- The `Request` value object (src/space/sat.py, class `Request`). -/
structure Request where
  selector : String
  value : String
  src : Option String
  offset : Nat
  limit : String
  date : DateVal
deriving DecidableEq, Repr

/-- `Request.from_text(txt)` without keyword overrides (src/space/sat.py,
lines 82-157), with the alias table passed explicitly: selector and value
(with alias resolution, shorthand expansion and the validity check), the
tilde offset, the source, and the limit/date pair. -/
def fromText (tbl : List (String × String)) (txt : String) :
    Except ParseErr Request :=
  match parseSelVal tbl txt.data with
  | .error e => .error e
  | .ok sv =>
    match parseLimDate txt.data with
    | .error e => .error e
    | .ok ld =>
      .ok ⟨sv.1, sv.2, some (parseSrc txt.data), parseOffset txt.data,
        ld.1, ld.2⟩

/-- One decimal digit character. -/
def digitChar (n : Nat) : Char :=
  match n with
  | 0 => '0' | 1 => '1' | 2 => '2' | 3 => '3' | 4 => '4'
  | 5 => '5' | 6 => '6' | 7 => '7' | 8 => '8' | _ => '9'

/-- Decimal digit expansion with structural fuel (any fuel above the value
itself is enough, since the value shrinks by a factor 10 each step). -/
def natToDigitsAux : Nat → Nat → List Char
  | 0, _ => []
  | fuel + 1, n =>
    if n < 10 then [digitChar n]
    else natToDigitsAux fuel (n / 10) ++ [digitChar (n % 10)]

/-- Decimal digits of a number, most significant first (Python
`"{}".format(int)`). -/
def natToDigits (n : Nat) : List Char := natToDigitsAux (n + 1) n

/-- Zero padding to width 2 (strftime `%m` `%d` `%H` `%M` `%S`). -/
def pad2 (n : Nat) : List Char :=
  if n < 10 then '0' :: natToDigits n else natToDigits n

/-- Zero padding to width 4 (strftime `%Y`). -/
def pad4 (n : Nat) : List Char :=
  List.replicate (4 - (natToDigits n).length) '0' ++ natToDigits n

/-- strftime `%Y-%m-%dT%H:%M:%S`, the `%FT%T` of `Request.__str__`. -/
def fmtFull (d : DateT) : List Char :=
  pad4 d.year ++ '-' :: (pad2 d.month ++ '-' :: (pad2 d.day ++ 'T' ::
    (pad2 d.hour ++ ':' :: (pad2 d.minute ++ ':' :: pad2 d.second))))

/-- `Request.__str__` (src/space/sat.py, lines 57-68): selector=value, then
`@src` when src is not None, then `~offset` when the offset is positive,
then the limit character (`^` when limit is after, `?` otherwise) and the
`%FT%T` date when the date field holds a Date. -/
def reqStrData (r : Request) : List Char :=
  r.selector.data ++ '=' :: r.value.data
  ++ (match r.src with
      | some s => '@' :: s.data
      | none => [])
  ++ (if 0 < r.offset then '~' :: natToDigits r.offset else [])
  ++ (match r.date with
      | .anyDate => []
      | .date d => (if r.limit == "after" then '^' else '?') :: fmtFull d)

/-- Whether the string contains no tilde directly followed by a digit (the
situation in which the offset is just the tilde count). -/
def noDigitAfterTilde : List Char → Bool
  | c :: d :: rest => !(c == '~' && isDigitChar d) && noDigitAfterTilde (d :: rest)
  | _ => true

/-- Whether a request value is free of the selector grammar delimiters and
of the equals sign (true for any value parsed directly from a selector
string; alias substitution can produce values violating it). -/
def valueClean (v : String) : Bool :=
  v.data.all (fun c => !isDelim c && !(c == '='))

/-- String form of `Request.__str__`. -/
def reqStr (r : Request) : String := String.mk (reqStrData r)

-- ===================== helper lemmas =====================

theorem existsIn_append (s1 s2 : List TleRec) (p : ParsedTle) :
    existsIn (s1 ++ s2) p = (existsIn s1 p || existsIn s2 p) := by
  simp [existsIn, List.any_append]

theorem tleInsert_ok_exists {store : List TleRec} {tles : List ParsedTle}
    {src : String} {s2 : List TleRec} {v : Option Nat}
    (h : tleInsert store tles src = .ok (s2, v)) :
    ∀ p ∈ tles, existsIn s2 p = true := by
  intro p hp
  unfold tleInsert at h
  by_cases hemp : (newEntities store tles src).isEmpty
  · rw [if_pos hemp] at h
    by_cases ht : tles.isEmpty
    · rw [if_pos ht] at h; exact absurd h (by simp)
    · rw [if_neg ht] at h
      simp only [Except.ok.injEq, Prod.mk.injEq] at h
      obtain ⟨hs, _⟩ := h
      subst hs
      have hfil : tles.filter (fun p => !existsIn store p) = [] := by
        have hnil := List.isEmpty_iff.mp hemp
        unfold newEntities at hnil
        exact List.map_eq_nil_iff.mp hnil
      have := List.filter_eq_nil_iff.mp hfil p hp
      simpa using this
  · rw [if_neg hemp] at h
    by_cases hdup : hasDupKey (newEntities store tles src)
    · rw [if_pos hdup] at h; exact absurd h (by simp)
    · rw [if_neg hdup] at h
      simp only [Except.ok.injEq, Prod.mk.injEq] at h
      obtain ⟨hs, _⟩ := h
      subst hs
      rw [existsIn_append]
      by_cases hex : existsIn store p
      · simp [hex]
      · have hpin : p ∈ tles.filter (fun p => !existsIn store p) := by
          rw [List.mem_filter]
          exact ⟨hp, by simp [hex]⟩
        have hmem : toRec p src ∈ newEntities store tles src :=
          List.mem_map_of_mem _ hpin
        have hany : existsIn (newEntities store tles src) p = true := by
          rw [existsIn, List.any_eq_true]
          exact ⟨toRec p src, hmem, by simp [toRec]⟩
        simp [hany]

theorem tleInsert_again {store : List TleRec} {tles : List ParsedTle}
    {src : String} {s2 : List TleRec} {v : Option Nat}
    (h : tleInsert store tles src = .ok (s2, v)) :
    tleInsert s2 tles src = .ok (s2, none) := by
  have hall := tleInsert_ok_exists h
  have hfil : tles.filter (fun p => !existsIn s2 p) = [] := by
    apply List.filter_eq_nil_iff.mpr
    intro p hp
    simp [hall p hp]
  have hemp : (newEntities s2 tles src).isEmpty = true := by
    unfold newEntities
    rw [hfil]
    rfl
  have ht : tles.isEmpty = false := by
    cases htl : tles with
    | nil =>
      subst htl
      have hcon : tleInsert store [] src = .error .emptyInput := by
        unfold tleInsert newEntities
        rfl
      rw [hcon] at h
      exact absurd h (by simp)
    | cons a l => rfl
  unfold tleInsert
  rw [if_pos hemp, if_neg (by simp [ht])]

-- ===================== C3 =====================

/-- C3: idempotent ingestion.  For every parsed TLE batch and source tag,
running `TleDb.insert` twice in succession leaves the table in exactly the
state reached by running it once: every record whose (norad_id, epoch) key
is already present is silently skipped, so a successful second call inserts
zero rows (and a failing call rolls back, leaving the table unchanged). -/
theorem C3_insert_idempotent :
    (∀ (store : List TleRec) (tles : List ParsedTle) (src : String),
      applyInsert (applyInsert store tles src) tles src
        = applyInsert store tles src)
    ∧ (∀ (store : List TleRec) (tles : List ParsedTle) (src : String)
        (s2 : List TleRec) (v : Option Nat),
        tleInsert store tles src = .ok (s2, v) →
        tleInsert s2 tles src = .ok (s2, none)) := by
  constructor
  · intro store tles src
    cases h : tleInsert store tles src with
    | error e =>
      have h1 : applyInsert store tles src = store := by
        unfold applyInsert; rw [h]
      rw [h1]
      exact h1
    | ok out =>
      obtain ⟨s2, v⟩ := out
      have h1 : applyInsert store tles src = s2 := by
        unfold applyInsert; rw [h]
      rw [h1]
      have h2 := tleInsert_again h
      unfold applyInsert
      rw [h2]
  · intro store tles src s2 v h
    exact tleInsert_again h

/-- Witness for C3 at a concrete input: inserting `pIss17` into the empty
table succeeds, and the second part of the theorem applies to show that
re-inserting it returns the unchanged table. -/
theorem C3_insert_idempotent_witness :
    tleInsert [rIss17] [pIss17] "stdin" = .ok ([rIss17], none) :=
  C3_insert_idempotent.2 [] [pIss17] "stdin" [rIss17] none (by decide)

-- ===================== C4 =====================

/-- C4: the claim says `insert` returns the count of genuinely new records
to the caller; the function body of `TleDb.insert` has no return statement,
so the caller receives `None` even though one genuinely new record was
inserted here (the count reaches only the log line).  This theorem
evaluates the model at the failing input. -/
theorem C4_insert_returns_none :
    tleInsert [] [pIss17] "stdin" = .ok ([rIss17], none)
    ∧ (newEntities [] [pIss17] "stdin").length = 1 := by decide

-- ===================== C10 =====================

theorem hasDupKey_middle {x y : TleRec} (hxy : sameKey x y = true) :
    ∀ (a b c : List TleRec), hasDupKey (a ++ (x :: (b ++ (y :: c)))) = true := by
  intro a
  induction a with
  | nil =>
    intro b c
    have hy : (b ++ (y :: c)).any (sameKey x) = true := by
      rw [List.any_eq_true]
      exact ⟨y, by simp, hxy⟩
    simp [hasDupKey, hy]
  | cons z rest ih =>
    intro b c
    simp [hasDupKey, ih b c]

/-- C10: in-batch duplicates.  If a single insert call receives two records
with the same (norad_id, epoch) key that is not yet in the table, the dedup
probe (which consults only pre-existing rows) passes both, the unique index
rejects the bulk insert and the transaction rolls back with an error; the
same two records supplied in two separate calls leave exactly one stored
row with that key and raise no error. -/
theorem C10_inbatch_duplicates (store : List TleRec)
    (l1 l2 l3 : List ParsedTle) (t1 t2 : ParsedTle) (src : String)
    (hn : t1.norad_id = t2.norad_id) (he : t1.epoch = t2.epoch)
    (h1 : existsIn store t1 = false) :
    tleInsert store (l1 ++ (t1 :: (l2 ++ (t2 :: l3)))) src
        = .error .uniqueViolation
    ∧ tleInsert store [t1] src = .ok (store ++ [toRec t1 src], none)
    ∧ tleInsert (store ++ [toRec t1 src]) [t2] src
        = .ok (store ++ [toRec t1 src], none)
    ∧ (store ++ [toRec t1 src]).countP (fun r => sameKey r (toRec t1 src)) = 1 := by
  have h2 : existsIn store t2 = false := by
    rw [existsIn] at h1 ⊢
    rw [← hn, ← he]
    exact h1
  have hkey : sameKey (toRec t1 src) (toRec t2 src) = true := by
    simp [sameKey, toRec, hn, he]
  refine ⟨?_, ?_, ?_, ?_⟩
  · have hents : newEntities store (l1 ++ (t1 :: (l2 ++ (t2 :: l3)))) src
        = (newEntities store l1 src) ++ (toRec t1 src ::
          ((newEntities store l2 src) ++ (toRec t2 src ::
          (newEntities store l3 src)))) := by
      unfold newEntities
      rw [List.filter_append, List.filter_cons, List.filter_append,
        List.filter_cons]
      simp [h1, h2]
    have hdup := hasDupKey_middle hkey (newEntities store l1 src)
      (newEntities store l2 src) (newEntities store l3 src)
    unfold tleInsert
    simp only [hents, hdup, List.isEmpty_eq_true, reduceIte]
    rw [if_neg (by simp)]
  · unfold tleInsert newEntities
    simp [List.filter_cons, h1, hasDupKey, toRec]
  · have hext : existsIn (store ++ [toRec t1 src]) t2 = true := by
      rw [existsIn_append]
      have hone : existsIn [toRec t1 src] t2 = true := by
        simp [existsIn, toRec, hn, he]
      simp [hone]
    unfold tleInsert newEntities
    simp [List.filter_cons, hext]
  · rw [List.countP_append]
    have hall : ∀ x ∈ store, ¬(x.norad_id = t1.norad_id ∧ x.epoch = t1.epoch) := by
      intro x hx hcon
      have htrue : existsIn store t1 = true := by
        rw [existsIn, List.any_eq_true]
        exact ⟨x, hx, by simp [hcon.1, hcon.2]⟩
      rw [htrue] at h1
      exact absurd h1 (by simp)
    have hz : store.countP (fun r => sameKey r (toRec t1 src)) = 0 := by
      rw [List.countP_eq_zero]
      intro r hr hcon
      simp only [sameKey, toRec, Bool.and_eq_true, beq_iff_eq] at hcon
      exact hall r hr hcon
    rw [hz]
    simp [sameKey]

/-- Witness for C10 at a concrete input: two ISS records with the same key
in one batch make the insert fail, while the same records in two separate
calls leave one row. -/
theorem C10_inbatch_duplicates_witness :
    tleInsert [] ([] ++ (pIss17 :: ([] ++ (pIss17b :: [])))) "stdin"
        = .error .uniqueViolation
    ∧ tleInsert [] [pIss17] "stdin" = .ok ([] ++ [toRec pIss17 "stdin"], none)
    ∧ tleInsert ([] ++ [toRec pIss17 "stdin"]) [pIss17b] "stdin"
        = .ok ([] ++ [toRec pIss17 "stdin"], none)
    ∧ ([] ++ [toRec pIss17 "stdin"]).countP
        (fun r => sameKey r (toRec pIss17 "stdin")) = 1 :=
  C10_inbatch_duplicates [] [] [] [] pIss17 pIss17b "stdin" rfl rfl (by decide)

-- ===================== C8 =====================

/-- C8: tag protection.  For every folder state, tag index and cutoff, after
a confirmed purge every file that is referenced by the tag index (and
existed before) still exists, while every untagged file whose embedded
timestamp is strictly older than the cutoff is deleted. -/
theorem C8_tag_protection (files : List FileRec) (tagged : List String)
    (cutoff : Nat) (f : FileRec) (hf : f ∈ files) :
    (f.fname ∈ tagged → f ∈ purge files tagged cutoff)
    ∧ (f.ftime < cutoff → f.fname ∉ tagged → f ∉ purge files tagged cutoff) := by
  constructor
  · intro htag
    rw [purge, List.mem_filter]
    refine ⟨hf, ?_⟩
    simp
    exact Or.inr htag
  · intro hold htag hmem
    rw [purge, List.mem_filter] at hmem
    have hc : tagged.contains f.fname = false := by
      rw [List.contains_eq_any_beq]
      rw [List.any_eq_false]
      intro x hx
      simp only [beq_iff_eq]
      intro hcon
      exact htag (hcon ▸ hx)
    rw [hc] at hmem
    simp [hold] at hmem

/-- Witness for C8 at a concrete input: with cutoff 3, the tagged file of
timestamp 1 survives a purge and the untagged file of timestamp 1 is
deleted. -/
theorem C8_tag_protection_witness :
    (⟨"a", 1⟩ : FileRec) ∈ purge [⟨"a", 1⟩, ⟨"b", 1⟩, ⟨"c", 5⟩] ["a"] 3
    ∧ (⟨"b", 1⟩ : FileRec) ∉ purge [⟨"a", 1⟩, ⟨"b", 1⟩, ⟨"c", 5⟩] ["a"] 3 :=
  ⟨(C8_tag_protection [⟨"a", 1⟩, ⟨"b", 1⟩, ⟨"c", 5⟩] ["a"] 3 ⟨"a", 1⟩
      (by decide)).1 (by decide),
   (C8_tag_protection [⟨"a", 1⟩, ⟨"b", 1⟩, ⟨"c", 5⟩] ["a"] 3 ⟨"b", 1⟩
      (by decide)).2 (by decide) (by decide)⟩

-- ===================== C9 =====================

theorem lookup_upsert (idx : List (String × String)) (k v : String) :
    (upsert idx k v).lookup k = some v := by
  induction idx with
  | nil => simp [upsert]
  | cons kv rest ih =>
    obtain ⟨k0, v0⟩ := kv
    by_cases hk : k0 = k
    · subst hk
      simp [upsert]
    · have hbeq : (k0 == k) = false := by simp [hk]
      have hbeq2 : (k == k0) = false := by
        simp only [beq_eq_false_iff_ne, ne_eq]
        exact fun hcon => hk hcon.symm
      simp only [upsert, hbeq, Bool.false_eq_true, if_false, List.lookup,
        hbeq2]
      exact ih

/-- C9 (amended): `CcsdsDb.tag` fails with `ValueError` precisely when the
tag name already exists in the tag index and `force` is false — regardless
of which file it is currently bound to — and on success the index
afterwards maps the tag to the currently loaded file. -/
theorem C9_tag_amended :
    (∀ (idx : List (String × String)) (f t : String) (force : Bool),
      (∃ e, tagOp idx f t force = .error e)
        ↔ ((idx.lookup t).isSome ∧ force = false))
    ∧ (∀ (idx : List (String × String)) (f t : String) (force : Bool)
        (idx2 : List (String × String)),
        tagOp idx f t force = .ok idx2 → idx2.lookup t = some f) := by
  constructor
  · intro idx f t force
    constructor
    · rintro ⟨e, he⟩
      unfold tagOp at he
      cases hl : idx.lookup t with
      | none => rw [hl] at he; exact absurd he (by simp)
      | some g =>
        rw [hl] at he
        cases force with
        | true => exact absurd he (by simp)
        | false => exact ⟨by simp [hl], rfl⟩
    · rintro ⟨hsome, hforce⟩
      subst hforce
      obtain ⟨g, hg⟩ := Option.isSome_iff_exists.mp hsome
      exact ⟨_, by unfold tagOp; rw [hg]; rfl⟩
  · intro idx f t force idx2 h
    unfold tagOp at h
    cases hl : idx.lookup t with
    | none =>
      rw [hl] at h
      simp only [Except.ok.injEq] at h
      subst h
      exact lookup_upsert idx t f
    | some g =>
      rw [hl] at h
      cases force with
      | true =>
        simp only [Bool.not_true, Bool.false_eq_true, if_false,
          Except.ok.injEq] at h
        subst h
        exact lookup_upsert idx t f
      | false => exact absurd h (by simp)

/-- Witness for C9 at a concrete input: creating a fresh tag succeeds and
afterwards the index maps the tag to the loaded file. -/
theorem C9_tag_amended_witness :
    ([("t1", "f1")] : List (String × String)).lookup "t1" = some "f1" :=
  C9_tag_amended.2 [] "f1" "t1" false [("t1", "f1")] (by decide)

/-- Counterexample to C9 as stated: the tag t1 is already bound to the very
file f1 that is currently loaded, so the claim predicts success, but
`CcsdsDb.tag` raises `ValueError` whenever the tag exists at all. -/
theorem C9_tag_counterexample :
    tagOp [("t1", "f1")] "f1" "t1" false
      = .error "The tag t1 is already taken by f1" := by decide

-- ===================== C2 =====================

/-- Table row for the get_dated divergence: epoch 10, first in table order. -/
def rEp10 : TleRec := ⟨25544, "1998-067A", "ISS (ZARYA)", "tle-text-a", 10, "stdin"⟩

/-- Table row for the get_dated divergence: epoch 20, second in table order. -/
def rEp20 : TleRec := ⟨25544, "1998-067A", "ISS (ZARYA)", "tle-text-b", 20, "stdin"⟩

/-- C2: evaluation of `TleDb.get_dated` at the failing input.  Both rows
have epoch at most 30, yet the `before` branch returns the FIRST matching
row in table order (epoch 10), not the one with the largest epoch (20),
because it lacks an `order_by`; and when nothing matches, the lookup fails
with a `NameError` (the handler references the unbound name `e`), not with
`TleNotFound`. -/
theorem C2_get_dated_divergence :
    getDated [rEp10, rEp20] "before" 30 .norad_id "25544" = .ok rEp10
    ∧ rEp10.epoch < rEp20.epoch
    ∧ rEp20.epoch ≤ 30
    ∧ getDated [] "before" 30 .norad_id "25544" = .error .nameError := by decide

-- ===================== C1 / C7 =====================

theorem sortByEpoch_eq_of_perm {l rs : List TleRec}
    (hperm : l.Perm rs) (hmono : rs.Pairwise epochLt) :
    sortByEpoch l = rs := by
  have hsort : (sortByEpoch l).Sorted epochLe :=
    List.sorted_insertionSort epochLe l
  have hperm2 : (sortByEpoch l).Perm rs :=
    (List.perm_insertionSort epochLe l).trans hperm
  have hne : rs.Pairwise (fun a b : TleRec => a.epoch ≠ b.epoch) :=
    hmono.imp (fun h => Nat.ne_of_lt h)
  have hne2 : (sortByEpoch l).Pairwise (fun a b : TleRec => a.epoch ≠ b.epoch) :=
    (List.Perm.pairwise_iff (fun h => Ne.symm h) hperm2).mpr hne
  have hlt : (sortByEpoch l).Sorted epochLt := by
    have hand := List.Pairwise.and hsort hne2
    exact hand.imp (fun h => Nat.lt_of_le_of_ne h.1 h.2)
  exact List.eq_of_perm_of_sorted hperm2 hlt hmono

theorem get_drop_zero (l : List TleRec) (i : Nat)
    (h0 : 0 < (l.drop i).length) (j : Nat) (hj : j < l.length) (hij : i = j) :
    (l.drop i).get ⟨0, h0⟩ = l.get ⟨j, hj⟩ := by
  subst hij
  rw [List.get_eq_getElem, List.get_eq_getElem]
  dsimp only
  rw [List.getElem_drop]
  congr 1

/-- C7 (amended): `TleDb.history` raises `TleNotFound` if and only if no
record in the table matches the field/value filter (for any count
argument); otherwise with no count it yields all matching records in
ascending epoch order, and with a count n of at least 1 it yields the last
n entries of that ascending sequence.  (A count of 0 behaves like no count
and yields everything: Python slicing `[-0:]` is the whole list.) -/
theorem C7_history_amended (store : List TleRec) (sel : SelField) (v : String)
    (rs : List TleRec)
    (hperm : (store.filter (matchField sel v)).Perm rs)
    (hmono : rs.Pairwise epochLt) :
    (∀ n : Option Nat, history store sel v n = .error .notFound ↔ rs = [])
    ∧ (rs ≠ [] → history store sel v none = .ok rs)
    ∧ (∀ k : Nat, 1 ≤ k → rs ≠ [] →
        history store sel v (some k) = .ok (rs.drop (rs.length - k))) := by
  have hq : sortByEpoch (store.filter (matchField sel v)) = rs :=
    sortByEpoch_eq_of_perm hperm hmono
  refine ⟨?_, ?_, ?_⟩
  · intro n
    unfold history
    rw [hq]
    by_cases hrs : rs = []
    · subst hrs
      simp
    · rw [if_neg (by simp [List.isEmpty_iff, hrs])]
      constructor
      · intro hcon
        by_cases hz : (n.getD 0) == 0
        · rw [if_pos hz] at hcon; exact absurd hcon (by simp)
        · rw [if_neg hz] at hcon; exact absurd hcon (by simp)
      · intro hcon; exact absurd hcon hrs
  · intro hrs
    unfold history
    rw [hq, if_neg (by simp [List.isEmpty_iff, hrs])]
    rfl
  · intro k hk hrs
    unfold history
    rw [hq, if_neg (by simp [List.isEmpty_iff, hrs])]
    have hkz : ((some k).getD 0 == 0) = false := by
      simp only [Option.getD_some, beq_eq_false_iff_ne, ne_eq]
      omega
    rw [if_neg (by simp only [hkz]; simp)]
    simp only [Option.getD_some]

/-- Witness for C7 at a concrete input: two ISS records, count 1 yields the
single most recent one. -/
theorem C7_history_amended_witness :
    history [rIss18, rIss17] .norad_id "25544" (some 1)
      = .ok ([rIss17, rIss18].drop ([rIss17, rIss18].length - 1)) :=
  (C7_history_amended [rIss18, rIss17] .norad_id "25544" [rIss17, rIss18]
    (by decide) (by decide)).2.2 1 (by decide) (by decide)

/-- Counterexample to C7 as stated: with count 0 the claim says only the
last 0 entries (i.e. nothing) are yielded, but `history(number=0)` yields
every matching record. -/
theorem C7_history_counterexample :
    ¬ (history [rIss17] .norad_id "25544" (some 0)
        = .ok ([rIss17].drop ([rIss17].length - 0))) := by decide

/-- C1: offset semantics of TLE resolution.  For a satellite known to the
registry whose matching TLE records are enumerated by `rs` in strictly
increasing epoch order (epochs e0 < ... < ek), resolving src=tle,
limit=any, offset=N returns the record whose epoch is the (N+1)-th
largest, i.e. `rs[k - N]`; with fewer than N+1 records the resolution
fails with `NoDataError`. -/
theorem C1_tle_offset_resolution (reg : List SatRec) (store : List TleRec)
    (sel : SelField) (v : String) (N : Nat) (rs : List TleRec)
    (hknown : (satLookup reg sel v).isSome = true)
    (hperm : (store.filter (matchField sel v)).Perm rs)
    (hmono : rs.Pairwise epochLt) :
    (∀ _ : N < rs.length,
      fromRequestTleAny reg store sel v N
        = .ok (rs.get ⟨rs.length - 1 - N, by omega⟩))
    ∧ (rs.length ≤ N → fromRequestTleAny reg store sel v N = .error .noData) := by
  obtain ⟨m, hm⟩ := Option.isSome_iff_exists.mp hknown
  have hq : sortByEpoch (store.filter (matchField sel v)) = rs :=
    sortByEpoch_eq_of_perm hperm hmono
  constructor
  · intro hlt
    have hrs : rs ≠ [] := by
      intro hcon
      rw [hcon] at hlt
      simp at hlt
    have hhist : history store sel v (some (N + 1))
        = .ok (rs.drop (rs.length - (N + 1))) := by
      unfold history
      rw [hq, if_neg (by simp [List.isEmpty_iff, hrs])]
      rw [if_neg (by simp)]
      simp only [Option.getD_some]
    unfold fromRequestTleAny
    rw [hm, hhist]
    dsimp only
    have hlen : (rs.drop (rs.length - (N + 1))).length = N + 1 := by
      rw [List.length_drop]
      omega
    rw [dif_neg (by rw [hlen]; omega)]
    congr 1
    exact get_drop_zero rs _ _ _ _ (by omega)
  · intro hle
    unfold fromRequestTleAny
    rw [hm]
    by_cases hrs : rs = []
    · have hhist : history store sel v (some (N + 1)) = .error .notFound := by
        unfold history
        rw [hq, hrs]
        rfl
      rw [hhist]
    · have hhist : history store sel v (some (N + 1))
          = .ok (rs.drop (rs.length - (N + 1))) := by
        unfold history
        rw [hq, if_neg (by simp [List.isEmpty_iff, hrs])]
        rw [if_neg (by simp)]
        simp only [Option.getD_some]
      rw [hhist]
      dsimp only
      have hz : rs.length - (N + 1) = 0 := by omega
      rw [hz, List.drop_zero, dif_pos hle]

/-- Witness for C1 at a concrete input: with records at epochs 170 and 180,
offset 1 resolves to the second most recent record (epoch 170). -/
theorem C1_tle_offset_resolution_witness :
    fromRequestTleAny regIss [rIss18, rIss17] .norad_id "25544" 1 = .ok rIss17 :=
  (C1_tle_offset_resolution regIss [rIss18, rIss17] .norad_id "25544" 1
    [rIss17, rIss18] (by decide) (by decide) (by decide)).1 (by decide)

-- digit and decimal-rendering lemmas

theorem digitVal_digitChar (m : Nat) (h : m < 10) :
    digitVal (digitChar m) = m := by
  interval_cases m <;> rfl

theorem isDigitChar_digitChar (m : Nat) (h : m < 10) :
    isDigitChar (digitChar m) = true := by
  interval_cases m <;> rfl

theorem ntdAux_ne_nil (fuel n : Nat) (h : n < fuel) :
    natToDigitsAux fuel n ≠ [] := by
  cases fuel with
  | zero => omega
  | succ f =>
    unfold natToDigitsAux
    by_cases h10 : n < 10
    · simp [h10]
    · simp [h10]

theorem ntdAux_all_digit (fuel : Nat) :
    ∀ n, n < fuel → ∀ c ∈ natToDigitsAux fuel n, isDigitChar c = true := by
  induction fuel with
  | zero => intro n h; omega
  | succ f ih =>
    intro n h c hc
    unfold natToDigitsAux at hc
    by_cases h10 : n < 10
    · rw [if_pos h10] at hc
      simp at hc
      subst hc
      exact isDigitChar_digitChar n h10
    · rw [if_neg h10] at hc
      rw [List.mem_append] at hc
      cases hc with
      | inl hc => exact ih (n / 10) (by omega) c hc
      | inr hc =>
        simp at hc
        subst hc
        exact isDigitChar_digitChar (n % 10) (by omega)

theorem natOfDigits_snoc (ds : List Char) (c : Char) :
    natOfDigits (ds ++ [c]) = natOfDigits ds * 10 + digitVal c := by
  unfold natOfDigits
  rw [List.foldl_append]
  rfl

theorem ntdAux_correct (fuel : Nat) :
    ∀ n, n < fuel → natOfDigits (natToDigitsAux fuel n) = n := by
  induction fuel with
  | zero => intro n h; omega
  | succ f ih =>
    intro n h
    unfold natToDigitsAux
    by_cases h10 : n < 10
    · rw [if_pos h10]
      show natOfDigits ([] ++ [digitChar n]) = n
      rw [natOfDigits_snoc]
      show 0 * 10 + digitVal (digitChar n) = n
      rw [digitVal_digitChar n h10]
      omega
    · rw [if_neg h10]
      rw [natOfDigits_snoc]
      rw [ih (n / 10) (by omega)]
      rw [digitVal_digitChar (n % 10) (by omega)]
      omega

theorem natOfDigits_natToDigits (n : Nat) :
    natOfDigits (natToDigits n) = n :=
  ntdAux_correct (n + 1) n (Nat.lt_succ_self n)

theorem natToDigits_ne_nil (n : Nat) : natToDigits n ≠ [] :=
  ntdAux_ne_nil (n + 1) n (Nat.lt_succ_self n)

theorem natToDigits_all_digit (n : Nat) :
    ∀ c ∈ natToDigits n, isDigitChar c = true :=
  ntdAux_all_digit (n + 1) n (Nat.lt_succ_self n)

theorem ntdAux_small (fuel n : Nat) (hf : n < fuel) (h : n < 10) :
    natToDigitsAux fuel n = [digitChar n] := by
  cases fuel with
  | zero => omega
  | succ f => unfold natToDigitsAux; rw [if_pos h]

theorem ntdAux_length_le (fuel : Nat) :
    ∀ n k, n < fuel → n < 10 ^ (k + 1) →
      (natToDigitsAux fuel n).length ≤ k + 1 := by
  induction fuel with
  | zero => intro n k h; omega
  | succ f ih =>
    intro n k h hk
    unfold natToDigitsAux
    by_cases h10 : n < 10
    · rw [if_pos h10]; simp
    · rw [if_neg h10]
      rw [List.length_append]
      cases k with
      | zero => simp at hk; omega
      | succ k2 =>
        have hdiv : n / 10 < 10 ^ (k2 + 1) := by
          rw [Nat.div_lt_iff_lt_mul (by omega)]
          calc n < 10 ^ (k2 + 1 + 1) := hk
          _ = 10 ^ (k2 + 1) * 10 := by ring
        have := ih (n / 10) k2 (by omega) hdiv
        simp
        omega

theorem natToDigits_length_le4 (n : Nat) (h : n ≤ 9999) :
    (natToDigits n).length ≤ 4 := by
  have := ntdAux_length_le (n + 1) n 3 (Nat.lt_succ_self n) (by norm_num; omega)
  exact this

theorem natToDigits_lt10 (n : Nat) (h : n < 10) :
    natToDigits n = [digitChar n] :=
  ntdAux_small (n + 1) n (Nat.lt_succ_self n) h

theorem natToDigits_length2 (n : Nat) (h10 : 10 ≤ n) (h : n < 100) :
    (natToDigits n).length = 2 := by
  unfold natToDigits natToDigitsAux
  rw [if_neg (by omega)]
  rw [ntdAux_small n (n / 10) (by omega) (by omega)]
  rfl

theorem pad2_length (n : Nat) (h : n < 100) : (pad2 n).length = 2 := by
  unfold pad2
  by_cases h10 : n < 10
  · rw [if_pos h10]
    rw [List.length_cons, natToDigits_lt10 n h10]
    rfl
  · rw [if_neg h10]
    exact natToDigits_length2 n (by omega) h

theorem pad4_length (n : Nat) (h : n ≤ 9999) : (pad4 n).length = 4 := by
  unfold pad4
  rw [List.length_append, List.length_replicate]
  have := natToDigits_length_le4 n h
  have hne := natToDigits_ne_nil n
  have hpos : 0 < (natToDigits n).length := List.length_pos.mpr hne
  omega

theorem pad2_all_digit (n : Nat) : ∀ c ∈ pad2 n, isDigitChar c = true := by
  intro c hc
  unfold pad2 at hc
  by_cases h10 : n < 10
  · rw [if_pos h10] at hc
    rcases List.mem_cons.mp hc with hc | hc
    · subst hc; rfl
    · exact natToDigits_all_digit n c hc
  · rw [if_neg h10] at hc
    exact natToDigits_all_digit n c hc

theorem pad4_all_digit (n : Nat) : ∀ c ∈ pad4 n, isDigitChar c = true := by
  intro c hc
  unfold pad4 at hc
  rcases List.mem_append.mp hc with hc | hc
  · rw [List.eq_of_mem_replicate hc]; rfl
  · exact natToDigits_all_digit n c hc

theorem natOfDigits_cons_zero (ds : List Char) :
    natOfDigits ('0' :: ds) = natOfDigits ds := by
  rfl

theorem natOfDigits_zeros (k : Nat) (ds : List Char) :
    natOfDigits (List.replicate k '0' ++ ds) = natOfDigits ds := by
  induction k with
  | zero => rfl
  | succ k2 ih =>
    rw [List.replicate_succ, List.cons_append]
    rw [natOfDigits_cons_zero]
    exact ih

theorem natOfDigits_pad2 (n : Nat) : natOfDigits (pad2 n) = n := by
  unfold pad2
  by_cases h10 : n < 10
  · rw [if_pos h10, natOfDigits_cons_zero]
    exact natOfDigits_natToDigits n
  · rw [if_neg h10]
    exact natOfDigits_natToDigits n

theorem natOfDigits_pad4 (n : Nat) : natOfDigits (pad4 n) = n := by
  unfold pad4
  rw [natOfDigits_zeros]
  exact natOfDigits_natToDigits n

-- search, takeWhile, count and split lemmas

theorem searchSeq_cons_not (trig cls : Char → Bool) (c : Char) (l : List Char)
    (h : trig c = false) :
    searchSeq trig cls (c :: l) = searchSeq trig cls l := by
  rw [searchSeq.eq_def]
  dsimp only
  rw [if_neg (by simp [h])]

theorem searchSeq_append_none (trig cls : Char → Bool) (pre l : List Char)
    (h : ∀ c ∈ pre, trig c = false) :
    searchSeq trig cls (pre ++ l) = searchSeq trig cls l := by
  induction pre with
  | nil => rfl
  | cons c rest ih =>
    rw [List.cons_append,
      searchSeq_cons_not trig cls c (rest ++ l) (h c (by simp))]
    exact ih (fun d hd => h d (by simp [hd]))

theorem searchSeq_none (trig cls : Char → Bool) (l : List Char)
    (h : ∀ c ∈ l, trig c = false) :
    searchSeq trig cls l = none := by
  have := searchSeq_append_none trig cls l [] h
  simpa using this

theorem searchSeq_cons_hit (trig cls : Char → Bool) (c d : Char)
    (l : List Char) (htrig : trig c = true) (hcls : cls d = true) :
    searchSeq trig cls (c :: d :: l) = some (c, (d :: l).takeWhile cls) := by
  unfold searchSeq
  rw [if_pos htrig]
  simp [hcls]

theorem searchSeq_sound (trig cls : Char → Bool) :
    ∀ (l : List Char) (c : Char) (tok : List Char),
      searchSeq trig cls l = some (c, tok) →
      trig c = true ∧ tok ≠ [] ∧ ∀ x ∈ tok, cls x = true := by
  intro l
  induction l with
  | nil => intro c tok h; exact absurd h (by simp [searchSeq])
  | cons a rest ih =>
    intro c tok h
    unfold searchSeq at h
    by_cases htrig : trig a
    · rw [if_pos htrig] at h
      cases hr : rest with
      | nil =>
        subst hr
        exact ih c tok h
      | cons d rest2 =>
        subst hr
        dsimp only at h
        by_cases hcls : cls d
        · rw [if_pos hcls] at h
          simp only [Option.some.injEq, Prod.mk.injEq] at h
          obtain ⟨hc, htok⟩ := h
          subst hc
          subst htok
          refine ⟨htrig, ?_, ?_⟩
          · rw [List.takeWhile_cons, if_pos hcls]
            simp
          · intro x hx
            exact List.mem_takeWhile_imp hx
        · rw [if_neg hcls] at h
          exact ih c tok h
    · rw [if_neg htrig] at h
      exact ih c tok h

theorem takeWhile_append_all (p : Char → Bool) (a b : List Char)
    (h : ∀ c ∈ a, p c = true) :
    (a ++ b).takeWhile p = a ++ b.takeWhile p := by
  induction a with
  | nil => rfl
  | cons c rest ih =>
    rw [List.cons_append, List.takeWhile_cons, if_pos (h c (by simp))]
    rw [ih (fun d hd => h d (by simp [hd]))]
    rfl

theorem takeWhile_stop (p : Char → Bool) (a b : List Char)
    (ha : ∀ c ∈ a, p c = true)
    (hb : ∀ d, b.head? = some d → p d = false) :
    (a ++ b).takeWhile p = a := by
  rw [takeWhile_append_all p a b ha]
  cases b with
  | nil => simp
  | cons d rest =>
    rw [List.takeWhile_cons, if_neg (by simp [hb d rfl])]
    simp

theorem count_eq_zero_of_all (l : List Char) (t : Char)
    (h : ∀ c ∈ l, c ≠ t) : l.count t = 0 := by
  rw [List.count_eq_zero]
  intro hmem
  exact h t hmem rfl

theorem splitOnChar_no_sep (sep : Char) :
    ∀ (l : List Char), sep ∉ l → splitOnChar sep l = [l] := by
  intro l
  induction l with
  | nil => intro; rfl
  | cons c rest ih =>
    intro h
    unfold splitOnChar
    rw [ih (fun hc => h (by simp [hc]))]
    dsimp only
    rw [if_neg (by simp; intro hc; exact h (by simp [hc]))]

theorem splitOnChar_pair (sep : Char) (a b : List Char)
    (ha : sep ∉ a) (hb : sep ∉ b) :
    splitOnChar sep (a ++ sep :: b) = [a, b] := by
  induction a with
  | nil =>
    rw [List.nil_append]
    unfold splitOnChar
    rw [splitOnChar_no_sep sep b hb]
    simp
  | cons c rest ih =>
    rw [List.cons_append]
    unfold splitOnChar
    rw [ih (fun hc => ha (by simp [hc]))]
    dsimp only
    rw [if_neg (by simp; intro hc; exact ha (by simp [hc]))]

-- lowercasing lemmas

theorem lookup_mem_pairs :
    ∀ (l : List (Char × Char)) (k v : Char), l.lookup k = some v → (k, v) ∈ l := by
  intro l
  induction l with
  | nil => intro k v h; exact absurd h (by simp)
  | cons kv rest ih =>
    intro k v h
    obtain ⟨k0, v0⟩ := kv
    rw [List.lookup] at h
    by_cases hk : k == k0
    · rw [hk] at h
      dsimp only at h
      simp only [Option.some.injEq] at h
      subst h
      have hkk : k = k0 := by simpa using hk
      subst hkk
      simp
    · rw [Bool.not_eq_true] at hk
      rw [hk] at h
      dsimp only at h
      exact List.mem_cons_of_mem _ (ih k v h)

theorem lowerChar_spec (c : Char) (h : isAlnumAscii c = true) :
    isAlnumAscii (lowerChar c) = true ∧ lowerChar (lowerChar c) = lowerChar c := by
  unfold lowerChar
  cases hl : lowerPairs.lookup c with
  | none =>
    simp only [Option.getD_none]
    rw [hl]
    simp [h]
  | some v =>
    simp only [Option.getD_some]
    have hmem := lookup_mem_pairs lowerPairs c v hl
    fin_cases hmem <;> exact ⟨by decide, by decide⟩

-- strptime computation and parser inversion lemmas

theorem grabDigits_exact :
    ∀ (ds rest : List Char), (∀ c ∈ ds, isDigitChar c = true) →
      (∀ d, rest.head? = some d → isDigitChar d = false) →
      grabDigits ds.length (ds ++ rest) = (ds, rest) := by
  intro ds
  induction ds with
  | nil =>
    intro rest _ hrest
    cases rest with
    | nil => rfl
    | cons d rest2 => rfl
  | cons c ds2 ih =>
    intro rest hds hrest
    rw [List.length_cons, List.cons_append]
    unfold grabDigits
    rw [if_pos (hds c (by simp))]
    rw [ih rest (fun x hx => hds x (by simp [hx])) hrest]

theorem numFieldY_pad (y : Nat) (rest : List Char) (hy : y ≤ 9999)
    (hrest : ∀ d, rest.head? = some d → isDigitChar d = false) :
    numFieldY (pad4 y ++ rest) = some (y, rest) := by
  unfold numFieldY
  have hlen := pad4_length y hy
  have hgrab := grabDigits_exact (pad4 y) rest (pad4_all_digit y) hrest
  rw [hlen] at hgrab
  rw [hgrab]
  simp only [hlen]
  rw [if_pos (by simp)]
  rw [natOfDigits_pad4]

theorem numField2_pad (n : Nat) (rest : List Char) (hn : n < 100)
    (hrest : ∀ d, rest.head? = some d → isDigitChar d = false) :
    numField2 (pad2 n ++ rest) = some (n, rest) := by
  unfold numField2
  have hlen := pad2_length n hn
  have hgrab := grabDigits_exact (pad2 n) rest (pad2_all_digit n) hrest
  rw [hlen] at hgrab
  rw [hgrab]
  simp only [List.isEmpty_iff]
  rw [if_neg (by
    intro hcon
    have hl2 := pad2_length n hn
    rw [hcon] at hl2
    simp at hl2)]
  rw [natOfDigits_pad2]

theorem expectChar_cons (c : Char) (l : List Char) :
    expectChar c (c :: l) = some l := by
  simp [expectChar]

theorem head_not_digit (c : Char) (l : List Char) (hc : isDigitChar c = false) :
    ∀ d, ((c :: l)).head? = some d → isDigitChar d = false := by
  intro d h
  rw [List.head?_cons, Option.some.injEq] at h
  subst h
  exact hc

theorem dateOk_bounds {d : DateT} (h : dateOk d = true) :
    1 ≤ d.year ∧ d.year ≤ 9999 ∧ 1 ≤ d.month ∧ d.month ≤ 12
    ∧ 1 ≤ d.day ∧ d.day ≤ 31 ∧ d.hour ≤ 23 ∧ d.minute ≤ 59
    ∧ d.second ≤ 59 := by
  unfold dateOk dateFieldsOk at h
  simp only [Bool.and_eq_true, decide_eq_true_eq] at h
  omega

theorem strTimeFull_fmt (d : DateT) (hok : dateOk d = true) :
    strTimeFull (fmtFull d) = some d := by
  obtain ⟨h1, h2, h3, h4, h5, h6, h7, h8, h9⟩ := dateOk_bounds hok
  unfold strTimeFull fmtFull
  rw [numFieldY_pad d.year _ h2 (head_not_digit '-' _ rfl)]
  simp only [Option.some_bind]
  rw [expectChar_cons]
  simp only [Option.some_bind]
  rw [numField2_pad d.month _ (by omega) (head_not_digit '-' _ rfl)]
  simp only [Option.some_bind]
  rw [expectChar_cons]
  simp only [Option.some_bind]
  rw [numField2_pad d.day _ (by omega) (head_not_digit 'T' _ rfl)]
  simp only [Option.some_bind]
  rw [expectChar_cons]
  simp only [Option.some_bind]
  rw [numField2_pad d.hour _ (by omega) (head_not_digit ':' _ rfl)]
  simp only [Option.some_bind]
  rw [expectChar_cons]
  simp only [Option.some_bind]
  rw [numField2_pad d.minute _ (by omega) (head_not_digit ':' _ rfl)]
  simp only [Option.some_bind]
  rw [expectChar_cons]
  simp only [Option.some_bind]
  rw [← List.append_nil (pad2 d.second)]
  rw [numField2_pad d.second [] (by omega) (fun x hx => by simp at hx)]
  simp only [Option.some_bind]
  rw [if_pos (by
    simp only [List.isEmpty_nil, Bool.true_and]
    unfold dateOk at hok
    exact hok)]

theorem strTimeDateOnly_fmt (d : DateT) (hok : dateOk d = true) :
    strTimeDateOnly (fmtFull d) = none := by
  obtain ⟨h1, h2, h3, h4, h5, h6, h7, h8, h9⟩ := dateOk_bounds hok
  unfold strTimeDateOnly fmtFull
  rw [numFieldY_pad d.year _ h2 (head_not_digit '-' _ rfl)]
  simp only [Option.some_bind]
  rw [expectChar_cons]
  simp only [Option.some_bind]
  rw [numField2_pad d.month _ (by omega) (head_not_digit '-' _ rfl)]
  simp only [Option.some_bind]
  rw [expectChar_cons]
  simp only [Option.some_bind]
  rw [numField2_pad d.day _ (by omega) (head_not_digit 'T' _ rfl)]
  simp only [Option.some_bind]
  rw [if_neg]
  simp

theorem strTimeDateOnly_ok {l : List Char} {d : DateT}
    (h : strTimeDateOnly l = some d) : dateOk d = true := by
  unfold strTimeDateOnly at h
  simp only [Option.bind_eq_some] at h
  obtain ⟨⟨y, l1⟩, _, h⟩ := h
  obtain ⟨l2, _, h⟩ := h
  obtain ⟨⟨mo, l3⟩, _, h⟩ := h
  obtain ⟨l4, _, h⟩ := h
  obtain ⟨⟨dd, l5⟩, _, hfin⟩ := h
  by_cases hc : (l5.isEmpty && dateFieldsOk y mo dd 0 0 0) = true
  · rw [if_pos hc] at hfin
    simp only [Option.some.injEq] at hfin
    subst hfin
    simp only [Bool.and_eq_true] at hc
    unfold dateOk
    exact hc.2
  · rw [if_neg hc] at hfin
    exact absurd hfin (by simp)

theorem strTimeFull_ok {l : List Char} {d : DateT}
    (h : strTimeFull l = some d) : dateOk d = true := by
  unfold strTimeFull at h
  simp only [Option.bind_eq_some] at h
  obtain ⟨⟨y, l1⟩, _, h⟩ := h
  obtain ⟨l2, _, h⟩ := h
  obtain ⟨⟨mo, l3⟩, _, h⟩ := h
  obtain ⟨l4, _, h⟩ := h
  obtain ⟨⟨dd, l5⟩, _, h⟩ := h
  obtain ⟨l6, _, h⟩ := h
  obtain ⟨⟨hh, l7⟩, _, h⟩ := h
  obtain ⟨l8, _, h⟩ := h
  obtain ⟨⟨mi, l9⟩, _, h⟩ := h
  obtain ⟨l10, _, h⟩ := h
  obtain ⟨⟨ss, l11⟩, _, hfin⟩ := h
  by_cases hc : (l11.isEmpty && dateFieldsOk y mo dd hh mi ss) = true
  · rw [if_pos hc] at hfin
    simp only [Option.some.injEq] at hfin
    subst hfin
    simp only [Bool.and_eq_true] at hc
    unfold dateOk
    exact hc.2
  · rw [if_neg hc] at hfin
    exact absurd hfin (by simp)

theorem parseLimDate_post {l : List Char} {lim : String} {dv : DateVal}
    (h : parseLimDate l = .ok (lim, dv)) :
    (lim = "any" ∧ dv = .anyDate)
    ∨ ((lim = "after" ∨ lim = "before")
        ∧ ∃ d, dv = .date d ∧ dateOk d = true) := by
  unfold parseLimDate at h
  cases hs : searchSeq (fun c => c == '^' || c == '?') isDateTok l with
  | none =>
    rw [hs] at h
    simp only [Except.ok.injEq, Prod.mk.injEq] at h
    exact Or.inl ⟨h.1.symm, h.2.symm⟩
  | some ct =>
    obtain ⟨c, tok⟩ := ct
    rw [hs] at h
    dsimp only at h
    have hlim : (if c == '^' then "after" else "before") = "after"
        ∨ (if c == '^' then "after" else "before") = "before" := by
      by_cases hc : c == '^'
      · rw [if_pos hc]; exact Or.inl rfl
      · rw [if_neg hc]; exact Or.inr rfl
    cases hdo : strTimeDateOnly tok with
    | some d =>
      rw [hdo] at h
      simp only [Except.ok.injEq, Prod.mk.injEq] at h
      refine Or.inr ⟨h.1 ▸ hlim, d, h.2.symm, strTimeDateOnly_ok hdo⟩
    | none =>
      rw [hdo] at h
      cases hf : strTimeFull tok with
      | some d =>
        rw [hf] at h
        simp only [Except.ok.injEq, Prod.mk.injEq] at h
        refine Or.inr ⟨h.1 ▸ hlim, d, h.2.symm, strTimeFull_ok hf⟩
      | none =>
        rw [hf] at h
        exact absurd h (by simp)

theorem parseSrc_post (l : List Char) :
    (parseSrc l).data ≠ []
    ∧ (∀ c ∈ (parseSrc l).data, isAlnumAscii c = true)
    ∧ (parseSrc l).data.map lowerChar = (parseSrc l).data := by
  unfold parseSrc
  cases hs : searchSeq (fun c => c == '@') isAlnumAscii l with
  | none => exact ⟨by decide, by decide, by decide⟩
  | some ct =>
    obtain ⟨c, tok⟩ := ct
    obtain ⟨_, hne, hall⟩ := searchSeq_sound _ _ l c tok hs
    dsimp only
    refine ⟨?_, ?_, ?_⟩
    · simp only [ne_eq, List.map_eq_nil_iff]
      exact hne
    · intro x hx
      obtain ⟨y, hy, hxy⟩ := List.mem_map.mp hx
      subst hxy
      exact (lowerChar_spec y (hall y hy)).1
    · rw [List.map_map]
      apply List.map_congr_left
      intro y hy
      exact (lowerChar_spec y (hall y hy)).2

theorem checkSelector_ok {p q : String × String}
    (h : checkSelector p = .ok q) :
    q = p ∧ (p.1 = "name" ∨ p.1 = "cospar_id" ∨ p.1 = "norad_id") := by
  unfold checkSelector at h
  by_cases hc : (p.1 == "name" || p.1 == "cospar_id" || p.1 == "norad_id") = true
  · rw [if_pos hc] at h
    simp only [Except.ok.injEq] at h
    simp only [Bool.or_eq_true, beq_iff_eq] at hc
    exact ⟨h.symm, by tauto⟩
  · rw [if_neg hc] at h
    exact absurd h (by simp)

theorem parseSelVal_post {tbl : List (String × String)} {l : List Char}
    {a b : String} (h : parseSelVal tbl l = .ok (a, b)) :
    a = "name" ∨ a = "cospar_id" ∨ a = "norad_id" := by
  unfold parseSelVal at h
  cases h1 : splitKV (l.takeWhile (fun c => !isDelim c)) with
  | error e => rw [h1] at h; exact absurd h (by simp)
  | ok p =>
    rw [h1] at h
    dsimp only at h
    cases h2 : applyAlias tbl p with
    | error e => rw [h2] at h; exact absurd h (by simp)
    | ok p2 =>
      rw [h2] at h
      dsimp only at h
      obtain ⟨hq, hmem⟩ := checkSelector_ok h
      have ha : a = (expandSelector p2).1 := by rw [← hq]
      rw [ha]
      exact hmem

theorem fromText_ok_parts {tbl : List (String × String)} {txt : String}
    {r : Request} (h : fromText tbl txt = .ok r) :
    parseSelVal tbl txt.data = .ok (r.selector, r.value)
    ∧ parseLimDate txt.data = .ok (r.limit, r.date)
    ∧ r.src = some (parseSrc txt.data)
    ∧ r.offset = parseOffset txt.data := by
  unfold fromText at h
  cases h1 : parseSelVal tbl txt.data with
  | error e => rw [h1] at h; exact absurd h (by simp)
  | ok sv =>
    rw [h1] at h
    dsimp only at h
    cases h2 : parseLimDate txt.data with
    | error e => rw [h2] at h; exact absurd h (by simp)
    | ok ld =>
      rw [h2] at h
      dsimp only at h
      simp only [Except.ok.injEq] at h
      subst h
      exact ⟨by rfl, by rfl, rfl, rfl⟩

-- character-class bookkeeping for the round trip

theorem alnum_facts (c : Char) (h : isAlnumAscii c = true) :
    c ≠ '~' ∧ c ≠ '@' ∧ (c == '^' || c == '?') = false ∧ c ≠ '=' := by
  refine ⟨?_, ?_, ?_, ?_⟩
  · intro heq; subst heq; exact absurd h (by decide)
  · intro heq; subst heq; exact absurd h (by decide)
  · by_cases h1 : c = '^'
    · subst h1; exact absurd h (by decide)
    · by_cases h2 : c = '?'
      · subst h2; exact absurd h (by decide)
      · simp [h1, h2]
  · intro heq; subst heq; exact absurd h (by decide)

theorem digit_facts (c : Char) (h : isDigitChar c = true) :
    c ≠ '~' ∧ c ≠ '@' ∧ (c == '^' || c == '?') = false
    ∧ isDateTok c = true ∧ isAlnumAscii c = true := by
  have halnum : isAlnumAscii c = true := by
    unfold isAlnumAscii
    unfold isDigitChar at h
    simp [h]
  obtain ⟨f1, f2, f3, _⟩ := alnum_facts c halnum
  refine ⟨f1, f2, f3, ?_, halnum⟩
  unfold isDateTok
  unfold isDigitChar at h
  simp [h]

theorem dateTok_facts (c : Char) (h : isDateTok c = true) :
    c ≠ '~' ∧ c ≠ '@' ∧ (c == '^' || c == '?') = false := by
  refine ⟨?_, ?_, ?_⟩
  · intro heq; subst heq; exact absurd h (by decide)
  · intro heq; subst heq; exact absurd h (by decide)
  · by_cases h1 : c = '^'
    · subst h1; exact absurd h (by decide)
    · by_cases h2 : c = '?'
      · subst h2; exact absurd h (by decide)
      · simp [h1, h2]

theorem selData_facts (sel : String)
    (h3 : sel = "name" ∨ sel = "cospar_id" ∨ sel = "norad_id") :
    ∀ c ∈ sel.data, (!isDelim c) = true ∧ c ≠ '=' ∧ c ≠ '~' ∧ c ≠ '@'
      ∧ (c == '^' || c == '?') = false := by
  rcases h3 with h | h | h <;> subst h <;> decide

theorem valueClean_facts (v : String) (h : valueClean v = true) :
    ∀ c ∈ v.data, (!isDelim c) = true ∧ c ≠ '=' ∧ c ≠ '~' ∧ c ≠ '@'
      ∧ (c == '^' || c == '?') = false := by
  intro c hc
  unfold valueClean at h
  rw [List.all_eq_true] at h
  have hcc := h c hc
  simp only [Bool.and_eq_true, Bool.not_eq_true'] at hcc
  obtain ⟨hdel, heq⟩ := hcc
  unfold isDelim at hdel
  simp only [Bool.or_eq_false_iff, beq_eq_false_iff_ne, ne_eq] at hdel
  obtain ⟨⟨⟨⟨hat1, h2t⟩, h3t⟩, h4t⟩, h5t⟩ := hdel
  exact ⟨by simp [isDelim, hat1, h2t, h3t, h4t, h5t],
    by simpa using heq, h2t, hat1, by simp [h3t, h4t]⟩

theorem fmtFull_all_dateTok (d : DateT) :
    ∀ c ∈ fmtFull d, isDateTok c = true := by
  intro c hc
  unfold fmtFull at hc
  simp only [List.mem_append, List.mem_cons] at hc
  rcases hc with hc | hc | hc | hc | hc | hc | hc | hc | hc | hc | hc
  · exact (digit_facts c (pad4_all_digit d.year c hc)).2.2.2.1
  · subst hc; rfl
  · exact (digit_facts c (pad2_all_digit d.month c hc)).2.2.2.1
  · subst hc; rfl
  · exact (digit_facts c (pad2_all_digit d.day c hc)).2.2.2.1
  · subst hc; rfl
  · exact (digit_facts c (pad2_all_digit d.hour c hc)).2.2.2.1
  · subst hc; rfl
  · exact (digit_facts c (pad2_all_digit d.minute c hc)).2.2.2.1
  · subst hc; rfl
  · exact (digit_facts c (pad2_all_digit d.second c hc)).2.2.2.1

theorem fmtFull_cons (d : DateT) :
    ∃ e es, fmtFull d = e :: es ∧ isDigitChar e = true := by
  unfold fmtFull pad4
  cases hk : 4 - (natToDigits d.year).length with
  | zero =>
    rw [List.replicate_zero, List.nil_append]
    obtain ⟨e, es, hes⟩ := List.exists_cons_of_ne_nil (natToDigits_ne_nil d.year)
    rw [hes, List.cons_append]
    refine ⟨e, _, rfl, ?_⟩
    exact natToDigits_all_digit d.year e (by rw [hes]; simp)
  | succ k =>
    rw [List.replicate_succ, List.cons_append, List.cons_append]
    exact ⟨'0', _, rfl, rfl⟩

-- component-level round-trip lemmas

theorem parseSelVal_reqstr (tbl : List (String × String)) (sel val : String)
    (rest : List Char)
    (h3 : sel = "name" ∨ sel = "cospar_id" ∨ sel = "norad_id")
    (hval : valueClean val = true)
    (halias : sel = "name" → tbl.lookup val = none) :
    parseSelVal tbl (sel.data ++ '=' :: (val.data ++ '@' :: rest))
      = .ok (sel, val) := by
  have hsel := selData_facts sel h3
  have hvalf := valueClean_facts val hval
  have htake : (sel.data ++ '=' :: (val.data ++ '@' :: rest)).takeWhile
      (fun c => !isDelim c) = sel.data ++ '=' :: val.data := by
    have hgroup : sel.data ++ '=' :: (val.data ++ '@' :: rest)
        = (sel.data ++ '=' :: val.data) ++ '@' :: rest := by
      simp
    rw [hgroup]
    apply takeWhile_stop
    · intro c hc
      rcases List.mem_append.mp hc with hc | hc
      · exact (hsel c hc).1
      · rcases List.mem_cons.mp hc with hc | hc
        · subst hc; rfl
        · exact (hvalf c hc).1
    · intro dd hd
      rw [List.head?_cons, Option.some.injEq] at hd
      subst hd
      rfl
  unfold parseSelVal
  rw [htake]
  have hsplit : splitKV (sel.data ++ '=' :: val.data)
      = .ok (sel, val) := by
    unfold splitKV
    rw [if_pos (by
      rw [List.contains_eq_any_beq, List.any_eq_true]
      exact ⟨'=', by simp, by simp⟩)]
    rw [splitOnChar_pair '=' sel.data val.data
      (fun hc => (hsel '=' hc).2.1 rfl)
      (fun hc => (hvalf '=' hc).2.1 rfl)]
  rw [hsplit]
  dsimp only
  have halias2 : applyAlias tbl (sel, val) = .ok (sel, val) := by
    unfold applyAlias
    rcases h3 with h | h | h
    · subst h
      rw [if_pos (by simp)]
      dsimp only
      rw [halias rfl]
    · subst h
      rw [if_neg (by simp)]
    · subst h
      rw [if_neg (by simp)]
  rw [halias2]
  dsimp only
  have hexp : expandSelector (sel, val) = (sel, val) := by
    unfold expandSelector
    rcases h3 with h | h | h <;> subst h <;> rw [if_neg (by simp)]
  rw [hexp]
  unfold checkSelector
  rcases h3 with h | h | h <;> subst h <;> rw [if_pos (by simp)]

theorem parseOffset_generic (pre post : List Char) (off : Nat)
    (hpre : '~' ∉ pre) (hpost : '~' ∉ post)
    (hpost2 : ∀ d, post.head? = some d → isDigitChar d = false) :
    parseOffset (pre ++ ((if 0 < off then '~' :: natToDigits off else []) ++ post))
      = off := by
  have hdig : '~' ∉ natToDigits off := by
    intro hc
    exact (digit_facts '~' (natToDigits_all_digit off '~' hc)).1 rfl
  by_cases hoff : 0 < off
  · rw [if_pos hoff]
    have hcnt : (pre ++ ('~' :: natToDigits off ++ post)).count '~' = 1 := by
      rw [List.count_append, List.cons_append, List.count_cons]
      rw [List.count_append]
      rw [count_eq_zero_of_all pre '~' (fun c hc hc2 => hpre (hc2 ▸ hc))]
      rw [count_eq_zero_of_all (natToDigits off) '~'
        (fun c hc hc2 => hdig (hc2 ▸ hc))]
      rw [count_eq_zero_of_all post '~' (fun c hc hc2 => hpost (hc2 ▸ hc))]
      simp
    unfold parseOffset
    rw [hcnt]
    rw [if_pos (by simp)]
    obtain ⟨e, es, hes⟩ := List.exists_cons_of_ne_nil (natToDigits_ne_nil off)
    have hsearch : searchSeq (fun c => c == '~') isDigitChar
        (pre ++ ('~' :: natToDigits off ++ post))
        = some ('~', natToDigits off) := by
      rw [searchSeq_append_none _ _ pre _
        (fun c hc => by
          simp only [beq_eq_false_iff_ne, ne_eq]
          intro hc2
          exact hpre (hc2 ▸ hc))]
      rw [List.cons_append, hes, List.cons_append]
      rw [searchSeq_cons_hit _ _ '~' e _ (by simp)
        (natToDigits_all_digit off e (by rw [hes]; simp))]
      rw [← List.cons_append, ← hes]
      rw [takeWhile_stop isDigitChar (natToDigits off) post
        (natToDigits_all_digit off) hpost2]
    rw [hsearch]
    exact natOfDigits_natToDigits off
  · rw [if_neg hoff]
    rw [List.nil_append]
    have hcnt : (pre ++ post).count '~' = 0 := by
      rw [List.count_append]
      rw [count_eq_zero_of_all pre '~' (fun c hc hc2 => hpre (hc2 ▸ hc))]
      rw [count_eq_zero_of_all post '~' (fun c hc hc2 => hpost (hc2 ▸ hc))]
    unfold parseOffset
    rw [hcnt]
    rw [if_neg (by simp)]
    omega

theorem parseSrc_generic (pre : List Char) (s : String) (post : List Char)
    (hpre : '@' ∉ pre)
    (hs1 : s.data ≠ []) (hs2 : ∀ c ∈ s.data, isAlnumAscii c = true)
    (hs3 : s.data.map lowerChar = s.data)
    (hpost : ∀ d, post.head? = some d → isAlnumAscii d = false) :
    parseSrc (pre ++ ('@' :: (s.data ++ post))) = s := by
  obtain ⟨e, es, hes⟩ := List.exists_cons_of_ne_nil hs1
  unfold parseSrc
  have hsearch : searchSeq (fun c => c == '@') isAlnumAscii
      (pre ++ ('@' :: (s.data ++ post))) = some ('@', s.data) := by
    rw [searchSeq_append_none _ _ pre _
      (fun c hc => by
        simp only [beq_eq_false_iff_ne, ne_eq]
        intro hc2
        exact hpre (hc2 ▸ hc))]
    rw [hes, List.cons_append]
    rw [searchSeq_cons_hit _ _ '@' e _ (by simp)
      (hs2 e (by rw [hes]; simp))]
    rw [← List.cons_append, ← hes]
    rw [takeWhile_stop isAlnumAscii s.data post hs2 hpost]
  rw [hsearch]
  dsimp only
  rw [hs3]

theorem parseLimDate_none (l : List Char)
    (h : ∀ c ∈ l, (c == '^' || c == '?') = false) :
    parseLimDate l = .ok ("any", .anyDate) := by
  unfold parseLimDate
  rw [searchSeq_none _ _ l h]

theorem parseLimDate_date (pre : List Char) (limChar : Char) (d : DateT)
    (hpre : ∀ c ∈ pre, (c == '^' || c == '?') = false)
    (hlc : limChar = '^' ∨ limChar = '?')
    (hok : dateOk d = true) :
    parseLimDate (pre ++ limChar :: fmtFull d)
      = .ok (if limChar == '^' then "after" else "before", .date d) := by
  obtain ⟨e, es, hes, hdigE⟩ := fmtFull_cons d
  unfold parseLimDate
  have hsearch : searchSeq (fun c => c == '^' || c == '?') isDateTok
      (pre ++ limChar :: fmtFull d) = some (limChar, fmtFull d) := by
    rw [searchSeq_append_none _ _ pre _ hpre]
    rw [hes]
    rw [searchSeq_cons_hit _ _ limChar e _
      (by rcases hlc with h | h <;> subst h <;> simp)
      ((digit_facts e hdigE).2.2.2.1)]
    rw [← hes]
    have : (fmtFull d).takeWhile isDateTok = fmtFull d := by
      have h2 := takeWhile_stop isDateTok (fmtFull d) []
        (fmtFull_all_dateTok d) (fun x hx => by simp at hx)
      simpa using h2
    rw [this]
  rw [hsearch]
  dsimp only
  rw [strTimeDateOnly_fmt d hok]
  rw [strTimeFull_fmt d hok]

-- the round-trip characterization

theorem reqStr_reparse (tbl : List (String × String)) (r : Request)
    (h3 : r.selector = "name" ∨ r.selector = "cospar_id" ∨ r.selector = "norad_id")
    (hval : valueClean r.value = true)
    (halias : r.selector = "name" → tbl.lookup r.value = none)
    (s : String) (hsrc : r.src = some s)
    (hs1 : s.data ≠ []) (hs2 : ∀ c ∈ s.data, isAlnumAscii c = true)
    (hs3 : s.data.map lowerChar = s.data)
    (hdate : (r.limit = "any" ∧ r.date = .anyDate)
      ∨ ((r.limit = "after" ∨ r.limit = "before")
          ∧ ∃ d, r.date = .date d ∧ dateOk d = true)) :
    fromText tbl (reqStr r) = .ok r := by
  have hselF := selData_facts r.selector h3
  have hvalF := valueClean_facts r.value hval
  have hoffMem : ∀ c, c ∈ (if 0 < r.offset then '~' :: natToDigits r.offset
      else []) → c = '~' ∨ isDigitChar c = true := by
    intro c hc
    by_cases hoff : 0 < r.offset
    · rw [if_pos hoff] at hc
      rcases List.mem_cons.mp hc with hc | hc
      · exact Or.inl hc
      · exact Or.inr (natToDigits_all_digit _ c hc)
    · rw [if_neg hoff] at hc
      simp at hc
  rcases hdate with ⟨hlim, hdt⟩ | ⟨hlim2, d, hdt, hok⟩
  · -- no date part
    have hA : parseSelVal tbl (reqStr r).data = .ok (r.selector, r.value) := by
      have hshape : (reqStr r).data = r.selector.data ++ '=' ::
          (r.value.data ++ '@' :: (s.data ++
            (if 0 < r.offset then '~' :: natToDigits r.offset else []))) := by
        show reqStrData r = _
        unfold reqStrData
        rw [hsrc, hdt]
        first
        | rfl
        | simp only [List.append_assoc, List.cons_append, List.append_nil]
      rw [hshape]
      exact parseSelVal_reqstr tbl r.selector r.value _ h3 hval halias
    have hB : parseOffset (reqStr r).data = r.offset := by
      have hshape : (reqStr r).data = (r.selector.data ++ '=' ::
          (r.value.data ++ '@' :: s.data)) ++
          ((if 0 < r.offset then '~' :: natToDigits r.offset else []) ++ []) := by
        show reqStrData r = _
        unfold reqStrData
        rw [hsrc, hdt]
        first
        | rfl
        | simp only [List.append_assoc, List.cons_append, List.append_nil]
      rw [hshape]
      refine parseOffset_generic _ _ _ ?_ ?_ ?_
      · intro hmem
        simp only [List.mem_append, List.mem_cons] at hmem
        rcases hmem with hc | hc | hc | hc | hc
        · exact (hselF '~' hc).2.2.1 rfl
        · exact absurd hc (by decide)
        · exact (hvalF '~' hc).2.2.1 rfl
        · exact absurd hc (by decide)
        · exact (alnum_facts '~' (hs2 '~' hc)).1 rfl
      · simp
      · intro x hx
        simp at hx
    have hC : parseSrc (reqStr r).data = s := by
      have hshape : (reqStr r).data = (r.selector.data ++ '=' :: r.value.data)
          ++ ('@' :: (s.data ++
            ((if 0 < r.offset then '~' :: natToDigits r.offset else []) ++ []))) := by
        show reqStrData r = _
        unfold reqStrData
        rw [hsrc, hdt]
        first
        | rfl
        | simp only [List.append_assoc, List.cons_append, List.append_nil]
      rw [hshape]
      refine parseSrc_generic _ s _ ?_ hs1 hs2 hs3 ?_
      · intro hmem
        simp only [List.mem_append, List.mem_cons] at hmem
        rcases hmem with hc | hc | hc
        · exact (hselF '@' hc).2.2.2.1 rfl
        · exact absurd hc (by decide)
        · exact (hvalF '@' hc).2.2.2.1 rfl
      · intro x hx
        by_cases hoff : 0 < r.offset
        · rw [if_pos hoff] at hx
          simp only [List.cons_append, List.head?_cons, Option.some.injEq] at hx
          subst hx
          rfl
        · rw [if_neg hoff] at hx
          simp at hx
    have hD : parseLimDate (reqStr r).data = .ok ("any", .anyDate) := by
      have hshape : (reqStr r).data = r.selector.data ++ '=' ::
          (r.value.data ++ '@' :: (s.data ++
            (if 0 < r.offset then '~' :: natToDigits r.offset else []))) := by
        show reqStrData r = _
        unfold reqStrData
        rw [hsrc, hdt]
        first
        | rfl
        | simp only [List.append_assoc, List.cons_append, List.append_nil]
      rw [hshape]
      apply parseLimDate_none
      intro c hc
      simp only [List.mem_append, List.mem_cons] at hc
      rcases hc with hc | hc | hc | hc | hc
      · exact (hselF c hc).2.2.2.2
      · subst hc; rfl
      · exact (hvalF c hc).2.2.2.2
      · subst hc; rfl
      · rcases hc with hc | hc
        · exact (alnum_facts c (hs2 c hc)).2.2.1
        · rcases hoffMem c hc with hc2 | hc2
          · subst hc2; rfl
          · exact (digit_facts c hc2).2.2.1
    unfold fromText
    rw [hA]
    dsimp only
    rw [hD]
    dsimp only
    rw [hB, hC, ← hsrc, ← hlim, ← hdt]
  · -- date part present
    have hlc : (if r.limit == "after" then '^' else '?') = '^'
        ∨ (if r.limit == "after" then '^' else '?') = '?' := by
      by_cases hl : r.limit == "after"
      · rw [if_pos hl]; exact Or.inl rfl
      · rw [if_neg hl]; exact Or.inr rfl
    have hlcNotDigit : isDigitChar (if r.limit == "after" then '^' else '?')
        = false := by
      rcases hlc with h | h <;> rw [h] <;> rfl
    have hlcNotAlnum : isAlnumAscii (if r.limit == "after" then '^' else '?')
        = false := by
      rcases hlc with h | h <;> rw [h] <;> rfl
    have hlcNotTilde : ¬ ('~' = (if r.limit == "after" then '^' else '?')) := by
      rcases hlc with h | h <;> rw [h] <;> decide
    have hlcNotAt : ¬ ('@' = (if r.limit == "after" then '^' else '?')) := by
      rcases hlc with h | h <;> rw [h] <;> decide
    have hA : parseSelVal tbl (reqStr r).data = .ok (r.selector, r.value) := by
      have hshape : (reqStr r).data = r.selector.data ++ '=' ::
          (r.value.data ++ '@' :: (s.data ++
            ((if 0 < r.offset then '~' :: natToDigits r.offset else []) ++
              (if r.limit == "after" then '^' else '?') :: fmtFull d))) := by
        show reqStrData r = _
        unfold reqStrData
        rw [hsrc, hdt]
        first
        | rfl
        | simp only [List.append_assoc, List.cons_append, List.append_nil]
      rw [hshape]
      exact parseSelVal_reqstr tbl r.selector r.value _ h3 hval halias
    have hB : parseOffset (reqStr r).data = r.offset := by
      have hshape : (reqStr r).data = (r.selector.data ++ '=' ::
          (r.value.data ++ '@' :: s.data)) ++
          ((if 0 < r.offset then '~' :: natToDigits r.offset else []) ++
            (if r.limit == "after" then '^' else '?') :: fmtFull d) := by
        show reqStrData r = _
        unfold reqStrData
        rw [hsrc, hdt]
        first
        | rfl
        | simp only [List.append_assoc, List.cons_append, List.append_nil]
      rw [hshape]
      refine parseOffset_generic _ _ _ ?_ ?_ ?_
      · intro hmem
        simp only [List.mem_append, List.mem_cons] at hmem
        rcases hmem with hc | hc | hc | hc | hc
        · exact (hselF '~' hc).2.2.1 rfl
        · exact absurd hc (by decide)
        · exact (hvalF '~' hc).2.2.1 rfl
        · exact absurd hc (by decide)
        · exact (alnum_facts '~' (hs2 '~' hc)).1 rfl
      · intro hmem
        rcases List.mem_cons.mp hmem with hc | hc
        · exact hlcNotTilde hc
        · exact (dateTok_facts '~' (fmtFull_all_dateTok d '~' hc)).1 rfl
      · intro x hx
        rw [List.head?_cons, Option.some.injEq] at hx
        subst hx
        exact hlcNotDigit
    have hC : parseSrc (reqStr r).data = s := by
      have hshape : (reqStr r).data = (r.selector.data ++ '=' :: r.value.data)
          ++ ('@' :: (s.data ++
            ((if 0 < r.offset then '~' :: natToDigits r.offset else []) ++
              (if r.limit == "after" then '^' else '?') :: fmtFull d))) := by
        show reqStrData r = _
        unfold reqStrData
        rw [hsrc, hdt]
        first
        | rfl
        | simp only [List.append_assoc, List.cons_append, List.append_nil]
      rw [hshape]
      refine parseSrc_generic _ s _ ?_ hs1 hs2 hs3 ?_
      · intro hmem
        simp only [List.mem_append, List.mem_cons] at hmem
        rcases hmem with hc | hc | hc
        · exact (hselF '@' hc).2.2.2.1 rfl
        · exact absurd hc (by decide)
        · exact (hvalF '@' hc).2.2.2.1 rfl
      · intro x hx
        by_cases hoff : 0 < r.offset
        · rw [if_pos hoff] at hx
          simp only [List.cons_append, List.head?_cons, Option.some.injEq] at hx
          subst hx
          rfl
        · rw [if_neg hoff] at hx
          rw [List.nil_append, List.head?_cons, Option.some.injEq] at hx
          subst hx
          exact hlcNotAlnum
    have hD : parseLimDate (reqStr r).data
        = .ok (if (if r.limit == "after" then '^' else '?') == '^'
            then "after" else "before", .date d) := by
      have hshape : (reqStr r).data = (r.selector.data ++ '=' ::
          (r.value.data ++ '@' :: (s.data ++
            (if 0 < r.offset then '~' :: natToDigits r.offset else [])))) ++
          (if r.limit == "after" then '^' else '?') :: fmtFull d := by
        show reqStrData r = _
        unfold reqStrData
        rw [hsrc, hdt]
        first
        | rfl
        | simp only [List.append_assoc, List.cons_append, List.append_nil]
      rw [hshape]
      refine parseLimDate_date _ _ d ?_ hlc hok
      intro c hc
      simp only [List.mem_append, List.mem_cons] at hc
      rcases hc with hc | hc | hc | hc | hc | hc
      · exact (hselF c hc).2.2.2.2
      · subst hc; rfl
      · exact (hvalF c hc).2.2.2.2
      · subst hc; rfl
      · exact (alnum_facts c (hs2 c hc)).2.2.1
      · rcases hoffMem c hc with hc2 | hc2
        · subst hc2; rfl
        · exact (digit_facts c hc2).2.2.1
    have hlimEq : (if (if r.limit == "after" then '^' else '?') == '^'
        then "after" else "before") = r.limit := by
      rcases hlim2 with h | h <;> rw [h] <;> rfl
    unfold fromText
    rw [hA]
    dsimp only
    rw [hD]
    dsimp only
    rw [hB, hC, ← hsrc, hlimEq, ← hdt]

-- ===================== C5 =====================

/-- C5 (amended): selector round trip.  For every `Request` produced by
parsing a selector string — provided that, when the resulting selector is
name, its value does not match a stored alias, and that the value is free
of grammar delimiters and equals signs (a situation only alias
substitution can create) — formatting the request back to text with
`Request.__str__` and re-parsing yields a `Request` with the same
selector, value, src, offset, limit and date; a repeated-tilde offset
reappears in the canonical `~N` form. -/
theorem C5_roundtrip (tbl : List (String × String)) (txt : String)
    (r : Request)
    (hp : fromText tbl txt = .ok r)
    (hclean : valueClean r.value = true)
    (halias : r.selector = "name" → tbl.lookup r.value = none) :
    fromText tbl (reqStr r) = .ok r := by
  obtain ⟨hsv, hld, hsrc, _⟩ := fromText_ok_parts hp
  have h3 := parseSelVal_post hsv
  obtain ⟨hs1, hs2, hs3⟩ := parseSrc_post txt.data
  have hdate := parseLimDate_post hld
  exact reqStr_reparse tbl r h3 hclean halias (parseSrc txt.data) hsrc
    hs1 hs2 hs3 hdate

/-- Witness for C5 at a concrete input: the request parsed from
`norad=25544~3@oem` (whose repeated-tilde form would collapse to `~3`)
formats to `norad_id=25544@oem~3` and re-parses to itself. -/
theorem C5_roundtrip_witness :
    fromText [] (reqStr ⟨"norad_id", "25544", some "oem", 3, "any",
        DateVal.anyDate⟩)
      = .ok ⟨"norad_id", "25544", some "oem", 3, "any", DateVal.anyDate⟩ :=
  C5_roundtrip [] "norad=25544~3@oem" _ (by decide) (by decide) (by decide)

/-- Counterexample to C5 as stated: with aliases ISS -> name=LEO and
LEO -> norad_id=999, parsing ISS produces a name=LEO request (alias
substitution is not recursive), but re-parsing its formatted text
substitutes the LEO alias and yields a different selector and value. -/
theorem C5_roundtrip_counterexample :
    fromText [("ISS", "name=LEO"), ("LEO", "norad_id=999")] "ISS"
      = .ok ⟨"name", "LEO", some "tle", 0, "any", DateVal.anyDate⟩
    ∧ fromText [("ISS", "name=LEO"), ("LEO", "norad_id=999")]
        (reqStr ⟨"name", "LEO", some "tle", 0, "any", DateVal.anyDate⟩)
      = .ok ⟨"norad_id", "999", some "tle", 0, "any", DateVal.anyDate⟩
    ∧ ("norad_id" : String) ≠ "name" := by decide

-- ===================== C6 =====================

theorem searchSeq_single (trig cls : Char → Bool) (c : Char) :
    searchSeq trig cls [c] = none := by
  rw [searchSeq.eq_def]
  dsimp only
  split <;> rfl

theorem searchTilde_none (l : List Char) (h : noDigitAfterTilde l = true) :
    searchSeq (fun c => c == '~') isDigitChar l = none := by
  induction l with
  | nil => rfl
  | cons c rest ih =>
    cases rest with
    | nil => exact searchSeq_single _ _ c
    | cons d rest2 =>
      unfold noDigitAfterTilde at h
      simp only [Bool.and_eq_true, Bool.not_eq_true'] at h
      obtain ⟨h1, h2⟩ := h
      by_cases hc : (c == '~')
      · rw [hc] at h1
        simp only [Bool.true_and] at h1
        rw [searchSeq.eq_def]
        dsimp only
        rw [if_pos (by simp [hc])]
        rw [if_neg (by simp [h1])]
        exact ih h2
      · rw [searchSeq_cons_not _ _ c _ (by simpa using hc)]
        exact ih h2

/-- C6: offset grammar.  Whenever a selector string parses successfully:
(1) if no digit directly follows a tilde, the parsed offset equals the
number of tilde characters in the string (bare `~` gives 1, `~~` gives 2);
(2) if the string contains exactly one tilde and that tilde is directly
followed by a maximal digit run denoting N, the parsed offset is exactly
N; and (3) in particular `norad=25544~3@oem` parses to selector norad_id,
value 25544, src oem, offset 3, limit any. -/
theorem C6_offset_grammar :
    (∀ (tbl : List (String × String)) (txt : String) (r : Request),
      fromText tbl txt = .ok r → noDigitAfterTilde txt.data = true →
      r.offset = txt.data.count '~')
    ∧ (∀ (tbl : List (String × String)) (txt : String) (r : Request)
        (u ds v : List Char),
        fromText tbl txt = .ok r →
        txt.data = u ++ '~' :: (ds ++ v) →
        (∀ c ∈ ds, isDigitChar c = true) → ds ≠ [] →
        txt.data.count '~' = 1 →
        (∀ x, v.head? = some x → isDigitChar x = false) →
        r.offset = natOfDigits ds)
    ∧ fromText [] "norad=25544~3@oem"
        = .ok ⟨"norad_id", "25544", some "oem", 3, "any", DateVal.anyDate⟩ := by
  refine ⟨?_, ?_, by decide⟩
  · intro tbl txt r hp hnd
    obtain ⟨_, _, _, hoff⟩ := fromText_ok_parts hp
    rw [hoff]
    unfold parseOffset
    by_cases hcnt : (txt.data.count '~' == 1)
    · rw [if_pos hcnt]
      rw [searchTilde_none txt.data hnd]
      have hc1 : txt.data.count '~' = 1 := by simpa using hcnt
      dsimp only
      omega
    · rw [if_neg hcnt]
  · intro tbl txt r u ds v hp hdec hds hne hcnt hv
    obtain ⟨_, _, _, hoff⟩ := fromText_ok_parts hp
    rw [hoff]
    unfold parseOffset
    rw [hdec] at hcnt ⊢
    rw [if_pos (by rw [hcnt]; rfl)]
    have hcount : u.count '~' = 0 := by
      rw [List.count_append, List.count_cons] at hcnt
      simp only [beq_self_eq_true, if_true] at hcnt
      omega
    have hnotu : '~' ∉ u := List.count_eq_zero.mp hcount
    rw [searchSeq_append_none _ _ u _
      (fun c hc => by
        simp only [beq_eq_false_iff_ne, ne_eq]
        intro hc2
        exact hnotu (hc2 ▸ hc))]
    obtain ⟨e, es, hes⟩ := List.exists_cons_of_ne_nil hne
    rw [hes, List.cons_append]
    rw [searchSeq_cons_hit _ _ '~' e _ (by simp)
      (hds e (by rw [hes]; simp))]
    rw [← List.cons_append, ← hes]
    rw [takeWhile_stop isDigitChar ds v hds hv]

/-- Witness for C6 at a concrete input: `ISS~~` parses with offset 2, the
number of tildes. -/
theorem C6_offset_grammar_witness :
    (Request.mk "name" "ISS" (some "tle") 2 "any" DateVal.anyDate).offset
      = ("ISS~~" : String).data.count '~' :=
  C6_offset_grammar.1 [] "ISS~~" _ (by decide) (by decide)
